import Mathlib

/-!
# The task engine of `backend/nodejs/server.js`

A shallow embedding of `parseDeepWiki` (the stdout/stderr/close handlers of the
converter process), of the cancel route `DELETE /api/task/:taskId` and of the
socket `disconnect` handler, together with the JavaScript library operations
they rely on (`split`, `join`, `includes`, `trim`, `parseInt`, and the regular
expression of the progress line).

Strings are lists of characters.  A `data` event carries the bytes of its `Buffer`,
and `bufferToString` is the `data.toString()` of the handlers: UTF-8 decoding of that
chunk alone.
-/

namespace DeepWiki

/-- A JavaScript string, as the sequence of its characters. -/
abbrev Str := List Char

/-! ## Character classes of ECMAScript -/

/-- The class `LineTerminator`: LF, CR, U+2028, U+2029.  The regular-expression dot
matches every character outside it. -/
def isLineTerminator (c : Char) : Bool :=
  c.toNat == 0x0A || c.toNat == 0x0D || c.toNat == 0x2028 || c.toNat == 0x2029

/-- The class of `\s` and of `String.prototype.trim`: `WhiteSpace` and `LineTerminator`. -/
def isWhiteSpace (c : Char) : Bool :=
  c.toNat == 0x09 || c.toNat == 0x0A || c.toNat == 0x0B || c.toNat == 0x0C ||
  c.toNat == 0x0D || c.toNat == 0x20 || c.toNat == 0xA0 || c.toNat == 0x1680 ||
  (0x2000 ≤ c.toNat && c.toNat ≤ 0x200A) ||
  c.toNat == 0x2028 || c.toNat == 0x2029 || c.toNat == 0x202F || c.toNat == 0x205F ||
  c.toNat == 0x3000 || c.toNat == 0xFEFF

/-- The class of `\d`: the ASCII digits. -/
def isDigit (c : Char) : Bool :=
  48 ≤ c.toNat && c.toNat ≤ 57

/-- The class of the dot: every character but a line terminator. -/
def isDot (c : Char) : Bool :=
  !isLineTerminator c

/-! ## String operations -/

/-- Whether `needle` is an initial segment of `hay`. -/
def startsWith : Str → Str → Bool
  | [], _ => true
  | _ :: _, [] => false
  | n :: ns, h :: hs => n == h && startsWith ns hs

/-- The method `hay.includes(needle)`: `needle` occurs somewhere in `hay`. -/
def includes : Str → Str → Bool
  | [], needle => startsWith needle []
  | h :: hs, needle => startsWith needle (h :: hs) || includes hs needle

/-- The method `s.split("\n")`: the pieces between line feeds; never an empty array. -/
def splitNL : Str → List Str
  | [] => [[]]
  | c :: cs =>
    if c = '\n' then [] :: splitNL cs
    else
      match splitNL cs with
      | [] => [[c]]
      | l :: ls => (c :: l) :: ls

/-- The method `lines.join("\n")`. -/
def joinNL : List Str → Str
  | [] => []
  | [l] => l
  | l :: l2 :: ls => l ++ '\n' :: joinNL (l2 :: ls)

/-- The method `s.trim()`: white space removed from both ends. -/
def trim (s : Str) : Str :=
  ((s.dropWhile isWhiteSpace).reverse.dropWhile isWhiteSpace).reverse

/-! ## Buffers -/

/-- The content of a `Buffer`: its bytes. -/
abbrev Bytes := List Nat

/-- The character U+FFFD that the decoder puts for an ill-formed sequence. -/
def replacementChar : Char := Char.ofNat 0xFFFD

/-- The state of the UTF-8 decoder inside a multi-byte sequence: the code point read so
far, the number of continuation bytes still needed, and the bounds of the next byte. -/
structure Utf8State where
  codePoint : Nat
  needed : Nat
  lower : Nat
  upper : Nat
  deriving DecidableEq, Repr

/-- What a byte is at the start of a sequence. -/
inductive Utf8Lead where
  | char (c : Char)
  | lead (st : Utf8State)
  | invalid

/-- A byte read at the start of a sequence: an ASCII character, the lead of a sequence of
two, three or four bytes, or an ill-formed byte. -/
def utf8Lead (b : Nat) : Utf8Lead :=
  if b < 0x80 then .char (Char.ofNat b)
  else if 0xC2 ≤ b ∧ b ≤ 0xDF then .lead ⟨b - 0xC0, 1, 0x80, 0xBF⟩
  else if 0xE0 ≤ b ∧ b ≤ 0xEF then
    .lead ⟨b - 0xE0, 2, if b = 0xE0 then 0xA0 else 0x80, if b = 0xED then 0x9F else 0xBF⟩
  else if 0xF0 ≤ b ∧ b ≤ 0xF4 then
    .lead ⟨b - 0xF0, 3, if b = 0xF0 then 0x90 else 0x80, if b = 0xF4 then 0x8F else 0xBF⟩
  else .invalid

/-- The UTF-8 decoder: an ill-formed or truncated sequence gives one U+FFFD, and the
byte that broke a sequence is read again as the start of the next one. -/
def utf8Decode : Option Utf8State → Bytes → Str
  | none, [] => []
  | some _, [] => [replacementChar]
  | none, b :: bs =>
    match utf8Lead b with
    | .char c => c :: utf8Decode none bs
    | .lead st => utf8Decode (some st) bs
    | .invalid => replacementChar :: utf8Decode none bs
  | some st, b :: bs =>
    if st.lower ≤ b ∧ b ≤ st.upper then
      if st.needed = 1 then Char.ofNat (st.codePoint * 0x40 + (b - 0x80)) :: utf8Decode none bs
      else utf8Decode (some ⟨st.codePoint * 0x40 + (b - 0x80), st.needed - 1, 0x80, 0xBF⟩) bs
    else
      replacementChar ::
        match utf8Lead b with
        | .char c => c :: utf8Decode none bs
        | .lead st2 => utf8Decode (some st2) bs
        | .invalid => replacementChar :: utf8Decode none bs

/-- The call `data.toString()` on a `Buffer`: the bytes of this one chunk decoded as
UTF-8, with nothing carried over from or to another chunk. -/
def bufferToString (data : Bytes) : Str := utf8Decode none data

/-! ## Numbers -/

/-- The values `parseInt` can return on what the progress expression captures. -/
inductive JSNumber where
  | nan
  | fin (n : Nat)
  | inf
  deriving DecidableEq, Repr

/-- Number of binary digits of `n`; the first argument bounds the recursion and is
taken to be `n` itself. -/
def bitLength : Nat → Nat → Nat
  | 0, _ => 0
  | fuel + 1, n => if n = 0 then 0 else bitLength fuel (n / 2) + 1

/-- The Number value for a non-negative integer: the nearest double, ties to the even
significand, `Infinity` when the rounded value needs more than 1024 binary digits. -/
def toNumber (n : Nat) : JSNumber :=
  if n < 2 ^ 53 then .fin n
  else
    let e := bitLength n n - 53
    let q := n / 2 ^ e
    let r := n % 2 ^ e
    let up := decide (2 ^ e < 2 * r) || (decide (2 * r = 2 ^ e) && decide (q % 2 = 1))
    let v := (if up then q + 1 else q) * 2 ^ e
    if 1024 < bitLength v v then .inf else .fin v

/-- Base-10 value of a string of digits. -/
def digitsValue (ds : Str) : Nat :=
  ds.foldl (fun acc c => 10 * acc + (c.toNat - 48)) 0

/-- The call `parseInt(s, 10)` on a string without sign or leading white space (the
only strings the handler passes are captures of `\d+`): the leading digits are read in
base 10, and no digit gives `NaN`. -/
def parseInt (s : Str) : JSNumber :=
  match s.takeWhile isDigit with
  | [] => .nan
  | d :: ds => toNumber (digitsValue (d :: ds))

/-! ## Regular expressions

A backtracking matcher for the fragment the progress expression uses: characters,
classes, sequencing, greedy and lazy repetition of a class, capture groups. -/

/-- Regular expressions. -/
inductive Re where
  | chr (c : Char)
  | cls (p : Char → Bool)
  | seq (a b : Re)
  | star (p : Char → Bool) (greedy : Bool)
  | group (r : Re)

/-- What can remain after a greedy `p*`, longest repetition first. -/
def starGreedy (p : Char → Bool) : Str → List Str
  | [] => [[]]
  | c :: cs => if p c then starGreedy p cs ++ [c :: cs] else [c :: cs]

/-- What can remain after a lazy `p*?`, shortest repetition first. -/
def starLazy (p : Char → Bool) : Str → List Str
  | [] => [[]]
  | c :: cs => (c :: cs) :: (if p c then starLazy p cs else [])

/-- All matches of an expression at the start of the input, in the order a backtracking
matcher tries them; each is the remaining input and the captures, in the order of the
groups. -/
def Re.run : Re → Str → List (Str × List Str)
  | .chr c, s =>
    match s with
    | [] => []
    | x :: xs => if x = c then [(xs, [])] else []
  | .cls p, s =>
    match s with
    | [] => []
    | x :: xs => if p x then [(xs, [])] else []
  | .seq a b, s =>
    (a.run s).flatMap fun ra => (b.run ra.1).map fun rb => (rb.1, ra.2 ++ rb.2)
  | .star p greedy, s =>
    (if greedy then starGreedy p s else starLazy p s).map fun rest => (rest, [])
  | .group r, s =>
    (r.run s).map fun x => (x.1, s.take (s.length - x.1.length) :: x.2)

/-- The captures of the first match of an unanchored expression: start positions are
tried from the left, and at each the first match in backtracking order is taken. -/
def Re.exec (re : Re) : Str → Option (List Str)
  | [] => ((re.run []).head?).map (·.2)
  | c :: cs =>
    match (re.run (c :: cs)).head? with
    | some m => some m.2
    | none => re.exec cs

/-- The expression `/\[(.*?)\]\s*(\d+)%:\s*(.*)/`. -/
def progressRe : Re :=
  .seq (.chr '[') <| .seq (.group (.star isDot false)) <| .seq (.chr ']') <|
  .seq (.star isWhiteSpace true) <|
  .seq (.group (.seq (.cls isDigit) (.star isDigit true))) <|
  .seq (.chr '%') <| .seq (.chr ':') <| .seq (.star isWhiteSpace true) <|
  .group (.star isDot true)

/-- The part `(.*)` of the progress expression. -/
def reMessage : Re := .group (.star isDot true)

/-- The part `\s*(.*)`. -/
def reSpaceMessage : Re := .seq (.star isWhiteSpace true) reMessage

/-- The part `%:\s*(.*)`. -/
def rePercent : Re := .seq (.chr '%') (.seq (.chr ':') reSpaceMessage)

/-- The part `(\d+)`. -/
def reDigits : Re := .group (.seq (.cls isDigit) (.star isDigit true))

/-- The part `\s*(\d+)%:\s*(.*)`. -/
def reSpaceDigits : Re := .seq (.star isWhiteSpace true) (.seq reDigits rePercent)

/-- The part `\]\s*(\d+)%:\s*(.*)`. -/
def reClose : Re := .seq (.chr ']') reSpaceDigits

/-- The call `line.match(/\[(.*?)\]\s*(\d+)%:\s*(.*)/)`: the three captures of the
first match, if any. -/
def progressMatch (line : Str) : Option (Str × Str × Str) :=
  match progressRe.exec line with
  | some [stage, digits, message] => some (stage, digits, message)
  | _ => none

/-- The values the handler reads off a match: `progressMatch[1]`,
`parseInt(progressMatch[2], 10)` and `progressMatch[3]`. -/
def progressEvent (line : Str) : Option (Str × JSNumber × Str) :=
  (progressMatch line).map fun m => (m.1, parseInt m.2.1, m.2.2)


/-! ## The task record and the handlers -/

/-- The marker line that opens the payload. -/
def beginMarker : Str := "--------- Markdown 内容 ---------".toList

/-- The marker line that closes the payload. -/
def endMarker : Str := "--------- Markdown 结束 ---------".toList

/-- The values of `task.status`. -/
inductive Status where
  | running
  | completed
  | failed
  | cancelled
  deriving DecidableEq, Repr

/-- A field of the task record that is absent until assigned, then `null` or a string. -/
inductive Field where
  | undefined
  | null
  | str (s : Str)
  deriving DecidableEq, Repr

/-- What the handlers use of the `ChildProcess` object: its `killed` flag, and whether
the runtime has already released the process (it has exited). -/
structure ChildProcess where
  killed : Bool
  exited : Bool
  deriving DecidableEq, Repr

/-- The method `process.kill()`: the signal is sent, and `killed` set, only while the
process has not exited. -/
def ChildProcess.kill (p : ChildProcess) : ChildProcess :=
  if p.exited then p else { p with killed := true }

/-- The entry of `activeTasks` for the task. -/
structure Task where
  process : ChildProcess
  status : Status
  socketId : Str
  stage : Str
  progress : JSNumber
  message : Field
  error : Field
  outputPath : Str
  deriving DecidableEq, Repr

/-- A call `io.to(socketId).emit("task:<id>:<name>", payload)`. -/
inductive Emit where
  | progress (stage : Str) (progress : JSNumber) (message : Str)
  | completed (message : Str)
  | failed (error : Str)
  deriving DecidableEq, Repr

/-- The task record, the local variables of `parseDeepWiki`, the notifications emitted
so far (oldest first) and the content written to `outputPath`. -/
structure State where
  task : Task
  markdown : Str
  errorOutput : Str
  isCollectingMarkdown : Bool
  stdoutBuffer : Str
  markdownLines : List Str
  emitted : List Emit
  file : Option Str
  deriving DecidableEq, Repr

/-- The state `parseDeepWiki` sets up before any event arrives. -/
def parseDeepWiki (socketId outputPath : Str) : State where
  task :=
    { process := { killed := false, exited := false }
      status := .running
      socketId := socketId
      stage := "启动".toList
      progress := .fin 0
      message := .undefined
      error := .undefined
      outputPath := outputPath }
  markdown := []
  errorOutput := []
  isCollectingMarkdown := false
  stdoutBuffer := []
  markdownLines := []
  emitted := []
  file := none

/-- The body of the loop over the complete lines of the stdout handler. -/
def processLine (s : State) (line : Str) : State :=
  if includes line beginMarker then
    { s with isCollectingMarkdown := true, markdownLines := [] }
  else if includes line endMarker then
    { s with isCollectingMarkdown := false, markdown := joinNL s.markdownLines }
  else if s.isCollectingMarkdown then
    { s with markdownLines := s.markdownLines ++ [line] }
  else
    match progressEvent line with
    | some (stage, progress, message) =>
      { s with
        task := { s.task with stage := stage, progress := progress, message := .str message }
        emitted := s.emitted ++ [.progress stage progress message] }
    | none => s

/-- The stdout handler from the decoded text of the chunk on: the text is appended to
the buffer, the buffer is split at line feeds, the last piece is held back and the
other pieces are processed in order. -/
def appendStdout (s : State) (text : Str) : State :=
  let lines := splitNL (s.stdoutBuffer ++ text)
  (lines.dropLast).foldl processLine { s with stdoutBuffer := (lines.getLast?).getD [] }

/-- The handler of `pythonProcess.stdout.on("data", ...)`: the chunk is decoded by
`data.toString()`, then handled as in `appendStdout`. -/
def onStdoutData (s : State) (data : Bytes) : State :=
  appendStdout s (bufferToString data)

/-- The handler of `pythonProcess.stderr.on("data", ...)`. -/
def onStderrData (s : State) (data : Bytes) : State :=
  { s with errorOutput := s.errorOutput ++ bufferToString data }

/-- What `fs.writeFileSync` followed by `fs.statSync` does in the close handler. -/
inductive FsOutcome where
  | writeThrows (message : Str)
  | statThrows (message : Str)
  | size (n : Nat)
  deriving DecidableEq, Repr

/-- The `catch` branch of the close handler. -/
def writeFailed (s : State) (message : Str) : State :=
  { s with
    task := { s.task with error := .str ("文件写入错误: ".toList ++ message) }
    emitted := s.emitted ++ [.failed ("文件写入错误: ".toList ++ message)] }

/-- The handler of `pythonProcess.on("close", ...)`; `code` is `none` when the process
was ended by a signal. -/
def onClose (s : State) (code : Option Int) (fs : FsOutcome) : State :=
  let s1 : State :=
    { s with
      task :=
        { s.task with
          process := { s.task.process with exited := true }
          status := if code = some 0 then .completed else .failed
          error := if code ≠ some 0 then .str s.errorOutput else .null } }
  if code = some 0 then
    if s1.markdown = [] || trim s1.markdown = [] then
      { s1 with
        task := { s1.task with error := .str "解析成功，但Markdown内容为空".toList }
        emitted := s1.emitted ++ [.failed "解析成功，但Markdown内容为空，请重试".toList] }
    else
      match fs with
      | .writeThrows message => writeFailed s1 message
      | .statThrows message => writeFailed { s1 with file := some s1.markdown } message
      | .size n =>
        if n = 0 then
          writeFailed { s1 with file := some s1.markdown } "文件写入失败，文件大小为0".toList
        else
          { s1 with
            file := some s1.markdown
            emitted := s1.emitted ++ [.completed "解析成功".toList] }
  else
    { s1 with
      emitted := s1.emitted ++
        [.failed ("解析失败: ".toList ++
          (if s1.errorOutput = [] then "未知错误".toList else s1.errorOutput))] }

/-- The route `DELETE /api/task/:taskId` for the task. -/
def cancelTask (s : State) : State :=
  if !s.task.process.killed then
    { s with
      task := { s.task with process := s.task.process.kill, status := .cancelled }
      emitted := s.emitted ++ [.failed "任务已取消".toList] }
  else s

/-- The `disconnect` handler of the socket `socketId`, for the task. -/
def onDisconnect (s : State) (socketId : Str) : State :=
  if s.task.socketId = socketId && s.task.status = .running then
    if !s.task.process.killed then
      { s with task := { s.task with process := s.task.process.kill, status := .cancelled } }
    else s
  else s

/-- What can happen to a task. -/
inductive Event where
  | stdoutData (data : Bytes)
  | stderrData (data : Bytes)
  | close (code : Option Int) (fs : FsOutcome)
  | cancel
  | disconnect (socketId : Str)
  deriving DecidableEq, Repr

/-- The handler an event runs. -/
def step (s : State) : Event → State
  | .stdoutData data => onStdoutData s data
  | .stderrData data => onStderrData s data
  | .close code fs => onClose s code fs
  | .cancel => cancelTask s
  | .disconnect socketId => onDisconnect s socketId

/-- The handlers of a sequence of events, in order. -/
def run (s : State) (events : List Event) : State :=
  events.foldl step s

/-- Whether a notification is `completed` or `failed`. -/
def Emit.isTerminal : Emit → Bool
  | .progress _ _ _ => false
  | .completed _ => true
  | .failed _ => true

/-! ## Notions of the specification -/

/-- The newline-terminated lines of a text, in order; what follows the last line feed
is not one of them. -/
def terminatedLines (current : Str) : Str → List Str
  | [] => []
  | c :: cs => if c = '\n' then current :: terminatedLines [] cs
    else terminatedLines (current ++ [c]) cs

/-- The lines lying outside the payload block, by the four rules of the demuxer of the
specification: a line with the begin marker opens the block; a line with the end
marker closes it, which is only looked at while the block is open; while the block is
open every other line is payload; every remaining line is outside the block. -/
def outsideBlock (inside : Bool) : List Str → List Str
  | [] => []
  | l :: ls =>
    if includes l beginMarker then outsideBlock true ls
    else if inside && includes l endMarker then outsideBlock false ls
    else if inside then outsideBlock true ls
    else l :: outsideBlock false ls

/-- The UTF-8 bytes of a character. -/
def utf8EncodeChar (c : Char) : Bytes :=
  if c.toNat < 0x80 then [c.toNat]
  else if c.toNat < 0x800 then [0xC0 + c.toNat / 0x40, 0x80 + c.toNat % 0x40]
  else if c.toNat < 0x10000 then
    [0xE0 + c.toNat / 0x1000, 0x80 + c.toNat / 0x40 % 0x40, 0x80 + c.toNat % 0x40]
  else
    [0xF0 + c.toNat / 0x40000, 0x80 + c.toNat / 0x1000 % 0x40, 0x80 + c.toNat / 0x40 % 0x40,
      0x80 + c.toNat % 0x40]

/-- The UTF-8 bytes of a text, as the converter writes them to its output. -/
def utf8Encode (s : Str) : Bytes := s.flatMap utf8EncodeChar

/-- The progress notification that carries an event. -/
def progressNotification (event : Str × JSNumber × Str) : Emit :=
  .progress event.1 event.2.1 event.2.2

/-- The line `"[" stage "]" ws digits "%:" ws message` of the progress grammar. -/
def progressLine (stage ws1 digits ws2 message : Str) : Str :=
  ['['] ++ stage ++ [']'] ++ ws1 ++ digits ++ ['%', ':'] ++ ws2 ++ message

/-- Whether an event is output of the process, on either stream. -/
def Event.isData : Event → Bool
  | .stdoutData _ => true
  | .stderrData _ => true
  | _ => false

/-- The accumulated stderr text: the decoded chunks of stderr, concatenated in order. -/
def stderrText : List Event → Str
  | [] => []
  | .stderrData data :: events => bufferToString data ++ stderrText events
  | _ :: events => stderrText events

/-- The text of a sequence of lines, each ended by a line feed. -/
def streamOf (lines : List Str) : Str :=
  (lines.map (· ++ ['\n'])).flatten

/-! ## Lines and chunks -/

theorem splitNL_noNL (l : Str) (h : '\n' ∉ l) : splitNL l = [l] := by
  induction l with
  | nil => rfl
  | cons c cs ih =>
    have hc : c ≠ '\n' := fun e => h (by simp [e])
    have hcs : '\n' ∉ cs := fun e => h (List.mem_cons_of_mem _ e)
    simp [splitNL, hc, ih hcs]

theorem splitNL_line (l rest : Str) (h : '\n' ∉ l) :
    splitNL (l ++ '\n' :: rest) = l :: splitNL rest := by
  induction l with
  | nil => simp [splitNL]
  | cons c cs ih =>
    have hc : c ≠ '\n' := fun e => h (by simp [e])
    have hcs : '\n' ∉ cs := fun e => h (List.mem_cons_of_mem _ e)
    simp [splitNL, hc, ih hcs]

theorem streamOf_cons (l : Str) (ls : List Str) :
    streamOf (l :: ls) = l ++ '\n' :: streamOf ls := by
  simp [streamOf]

theorem streamOf_append (as bs : List Str) :
    streamOf (as ++ bs) = streamOf as ++ streamOf bs := by
  simp [streamOf]

theorem splitNL_stream (lines : List Str) (tail : Str)
    (hl : ∀ l ∈ lines, '\n' ∉ l) (ht : '\n' ∉ tail) :
    splitNL (streamOf lines ++ tail) = lines ++ [tail] := by
  induction lines with
  | nil => simpa [streamOf] using splitNL_noNL tail ht
  | cons l ls ih =>
    have h1 : '\n' ∉ l := hl l (by simp)
    have h2 : ∀ x ∈ ls, '\n' ∉ x := fun x hx => hl x (List.mem_cons_of_mem _ hx)
    rw [streamOf_cons, List.append_assoc, List.cons_append, splitNL_line _ _ h1, ih h2]
    rfl

/-- Every text is a sequence of complete lines followed by a fragment without line feed. -/
theorem exists_stream (s : Str) :
    ∃ lines tail, s = streamOf lines ++ tail ∧ (∀ l ∈ lines, '\n' ∉ l) ∧ '\n' ∉ tail := by
  induction s with
  | nil => exact ⟨[], [], rfl, by simp, by simp⟩
  | cons c cs ih =>
    obtain ⟨lines, tail, hs, hl, ht⟩ := ih
    by_cases hc : c = '\n'
    · refine ⟨[] :: lines, tail, ?_, ?_, ht⟩
      · rw [streamOf_cons, hs, hc]; rfl
      · intro l hmem
        rcases List.mem_cons.1 hmem with h | h
        · simp [h]
        · exact hl l h
    · cases lines with
      | nil =>
        refine ⟨[], c :: tail, ?_, by simp, ?_⟩
        · rw [hs]; rfl
        · intro hmem
          rcases List.mem_cons.1 hmem with h | h
          · exact hc h.symm
          · exact ht h
      | cons l ls =>
        refine ⟨(c :: l) :: ls, tail, ?_, ?_, ht⟩
        · rw [hs, streamOf_cons, streamOf_cons]; rfl
        · intro x hmem
          rcases List.mem_cons.1 hmem with h | h
          · subst h
            intro hx
            rcases List.mem_cons.1 hx with h' | h'
            · exact hc h'.symm
            · exact hl l (by simp) h'
          · exact hl x (List.mem_cons_of_mem _ h)

theorem processLine_setBuffer (s : State) (b : Str) (line : Str) :
    processLine { s with stdoutBuffer := b } line =
      { processLine s line with stdoutBuffer := b } := by
  unfold processLine
  split_ifs <;> try rfl
  cases progressEvent line <;> rfl

theorem foldl_processLine_setBuffer (lines : List Str) (s : State) (b : Str) :
    lines.foldl processLine { s with stdoutBuffer := b } =
      { lines.foldl processLine s with stdoutBuffer := b } := by
  induction lines generalizing s with
  | nil => rfl
  | cons l ls ih => simp only [List.foldl_cons, processLine_setBuffer, ih]

theorem processLine_stdoutBuffer (s : State) (line : Str) :
    (processLine s line).stdoutBuffer = s.stdoutBuffer := by
  unfold processLine
  split_ifs <;> try rfl
  cases progressEvent line <;> rfl

theorem foldl_processLine_stdoutBuffer (lines : List Str) (s : State) :
    (lines.foldl processLine s).stdoutBuffer = s.stdoutBuffer := by
  induction lines generalizing s with
  | nil => rfl
  | cons l ls ih => simp only [List.foldl_cons, ih, processLine_stdoutBuffer]

/-- The stdout handler on a buffer and a chunk that together hold the complete lines
`lines` and the fragment `tail`. -/
theorem appendStdout_stream (s : State) (data : Str) (lines : List Str) (tail : Str)
    (h : s.stdoutBuffer ++ data = streamOf lines ++ tail)
    (hl : ∀ l ∈ lines, '\n' ∉ l) (ht : '\n' ∉ tail) :
    appendStdout s data = lines.foldl processLine { s with stdoutBuffer := tail } := by
  unfold appendStdout
  simp only [h, splitNL_stream lines tail hl ht]
  simp

theorem appendStdout_buffer_noNL (s : State) (data : Str) :
    '\n' ∉ (appendStdout s data).stdoutBuffer := by
  obtain ⟨lines, tail, h, hl, ht⟩ := exists_stream (s.stdoutBuffer ++ data)
  rw [appendStdout_stream s data lines tail h hl ht, foldl_processLine_stdoutBuffer]
  exact ht

theorem appendStdout_append (s : State) (a b : Str) :
    appendStdout (appendStdout s a) b = appendStdout s (a ++ b) := by
  obtain ⟨la, ta, ha, hla, hta⟩ := exists_stream (s.stdoutBuffer ++ a)
  obtain ⟨lb, tb, hb, hlb, htb⟩ := exists_stream (ta ++ b)
  have h1 := appendStdout_stream s a la ta ha hla hta
  have hbuf : (appendStdout s a).stdoutBuffer = ta := by
    rw [h1, foldl_processLine_stdoutBuffer]
  have h2 := appendStdout_stream (appendStdout s a) b lb tb (by rw [hbuf]; exact hb) hlb htb
  have h3 := appendStdout_stream s (a ++ b) (la ++ lb) tb
    (by rw [← List.append_assoc, ha, streamOf_append, List.append_assoc, hb,
          List.append_assoc])
    (by intro l hmem
        rcases List.mem_append.1 hmem with h | h
        · exact hla l h
        · exact hlb l h) htb
  rw [h2, h3, List.foldl_append]
  congr 1
  rw [h1, foldl_processLine_setBuffer la s ta, foldl_processLine_setBuffer la s tb]

theorem appendStdout_nil (s : State) (h : '\n' ∉ s.stdoutBuffer) :
    appendStdout s [] = s := by
  rw [appendStdout_stream s [] [] s.stdoutBuffer (by simp [streamOf]) (by simp) h]
  rfl

/-- Feeding chunks one by one is feeding their concatenation at once. -/
theorem foldl_appendStdout (chunks : List Str) (s : State) (h : '\n' ∉ s.stdoutBuffer) :
    chunks.foldl appendStdout s = appendStdout s chunks.flatten := by
  induction chunks generalizing s with
  | nil => simpa using (appendStdout_nil s h).symm
  | cons c cs ih =>
    rw [List.foldl_cons, ih _ (appendStdout_buffer_noNL s c), appendStdout_append]
    simp

theorem terminatedLines_noNL (current tail : Str) (h : '\n' ∉ tail) :
    terminatedLines current tail = [] := by
  induction tail generalizing current with
  | nil => rfl
  | cons c cs ih =>
    have hc : c ≠ '\n' := fun e => h (by simp [e])
    have hcs : '\n' ∉ cs := fun e => h (List.mem_cons_of_mem _ e)
    simp [terminatedLines, hc, ih _ hcs]

theorem terminatedLines_line (current l rest : Str) (h : '\n' ∉ l) :
    terminatedLines current (l ++ '\n' :: rest) = (current ++ l) :: terminatedLines [] rest := by
  induction l generalizing current with
  | nil => simp [terminatedLines]
  | cons c cs ih =>
    have hc : c ≠ '\n' := fun e => h (by simp [e])
    have hcs : '\n' ∉ cs := fun e => h (List.mem_cons_of_mem _ e)
    simp [terminatedLines, hc, ih _ hcs]

theorem terminatedLines_stream (lines : List Str) (tail : Str)
    (hl : ∀ l ∈ lines, '\n' ∉ l) (ht : '\n' ∉ tail) :
    terminatedLines [] (streamOf lines ++ tail) = lines := by
  induction lines with
  | nil => simpa [streamOf] using terminatedLines_noNL [] tail ht
  | cons l ls ih =>
    have h1 : '\n' ∉ l := hl l (by simp)
    have h2 : ∀ x ∈ ls, '\n' ∉ x := fun x hx => hl x (List.mem_cons_of_mem _ hx)
    rw [streamOf_cons, List.append_assoc, List.cons_append, terminatedLines_line _ _ _ h1, ih h2]
    rfl

/-- The notifications the loop emits over a sequence of lines: the progress events of
the lines outside the payload block that do not hold the end marker. -/
theorem foldl_processLine_emitted (lines : List Str) (s : State) :
    (lines.foldl processLine s).emitted =
      s.emitted ++ (((outsideBlock s.isCollectingMarkdown lines).filter
        fun l => !includes l endMarker).filterMap progressEvent).map progressNotification := by
  induction lines generalizing s with
  | nil => simp [outsideBlock]
  | cons l ls ih =>
    rw [List.foldl_cons, ih]
    unfold processLine
    rw [outsideBlock]
    by_cases hb : includes l beginMarker = true
    · simp [hb]
    · by_cases he : includes l endMarker = true
      · by_cases hc : s.isCollectingMarkdown = true
        · simp [hb, he, hc]
        · have hc2 : s.isCollectingMarkdown = false := by simpa using hc
          simp [hb, he, hc2]
      · by_cases hc : s.isCollectingMarkdown = true
        · simp [hb, he, hc]
        · have hc2 : s.isCollectingMarkdown = false := by simpa using hc
          have he2 : includes l endMarker = false := by simpa using he
          simp only [hb, he, hc, if_false, Bool.false_eq_true, Bool.false_and]
          cases hev : progressEvent l with
          | none => simp [hev, hc2, he2]
          | some ev =>
            obtain ⟨stage, progress, message⟩ := ev
            simp [hev, progressNotification, hc2, he2]

theorem filter_isTerminal_progress (events : List (Str × JSNumber × Str)) :
    (events.map progressNotification).filter Emit.isTerminal = [] := by
  induction events with
  | nil => rfl
  | cons e es ih =>
    rw [List.map_cons, List.filter_cons]
    simp only [progressNotification, Emit.isTerminal, Bool.false_eq_true, if_false]
    exact ih

/-- The loop emits no `completed` and no `failed` notification. -/
theorem foldl_processLine_terminal (lines : List Str) (s : State) :
    (lines.foldl processLine s).emitted.filter Emit.isTerminal =
      s.emitted.filter Emit.isTerminal := by
  rw [foldl_processLine_emitted, List.filter_append, filter_isTerminal_progress,
    List.append_nil]

/-- Lines without marker, outside the payload block, leave the demuxer as it is. -/
theorem foldl_processLine_outside (lines : List Str) (s : State)
    (hl : ∀ l ∈ lines, includes l beginMarker = false ∧ includes l endMarker = false)
    (hs : s.isCollectingMarkdown = false) :
    (lines.foldl processLine s).isCollectingMarkdown = false ∧
    (lines.foldl processLine s).markdown = s.markdown ∧
    (lines.foldl processLine s).markdownLines = s.markdownLines := by
  induction lines generalizing s with
  | nil => exact ⟨hs, rfl, rfl⟩
  | cons l ls ih =>
    have h1 := hl l (by simp)
    have h2 : ∀ x ∈ ls, includes x beginMarker = false ∧ includes x endMarker = false :=
      fun x hx => hl x (List.mem_cons_of_mem _ hx)
    have hstep : (processLine s l).isCollectingMarkdown = false ∧
        (processLine s l).markdown = s.markdown ∧
        (processLine s l).markdownLines = s.markdownLines := by
      unfold processLine
      simp only [h1.1, h1.2, hs, Bool.false_eq_true, if_false]
      cases progressEvent l <;> simp [hs]
    obtain ⟨a, b, c⟩ := ih (processLine s l) h2 hstep.1
    rw [List.foldl_cons]
    exact ⟨a, b.trans hstep.2.1, c.trans hstep.2.2⟩

/-- Lines without marker, inside the payload block, are appended to the payload lines. -/
theorem foldl_processLine_inside (lines : List Str) (s : State)
    (hl : ∀ l ∈ lines, includes l beginMarker = false ∧ includes l endMarker = false)
    (hs : s.isCollectingMarkdown = true) :
    (lines.foldl processLine s).isCollectingMarkdown = true ∧
    (lines.foldl processLine s).markdown = s.markdown ∧
    (lines.foldl processLine s).markdownLines = s.markdownLines ++ lines := by
  induction lines generalizing s with
  | nil => exact ⟨hs, rfl, by simp⟩
  | cons l ls ih =>
    have h1 := hl l (by simp)
    have h2 : ∀ x ∈ ls, includes x beginMarker = false ∧ includes x endMarker = false :=
      fun x hx => hl x (List.mem_cons_of_mem _ hx)
    have hstep : (processLine s l).isCollectingMarkdown = true ∧
        (processLine s l).markdown = s.markdown ∧
        (processLine s l).markdownLines = s.markdownLines ++ [l] := by
      unfold processLine
      simp [h1.1, h1.2, hs]
    obtain ⟨a, b, c⟩ := ih (processLine s l) h2 hstep.1
    rw [List.foldl_cons]
    refine ⟨a, b.trans hstep.2.1, ?_⟩
    rw [c, hstep.2.2]
    simp

/-- The payload after a block: lines without marker, a begin line, body lines without
marker, an end line that does not hold the begin marker. -/
theorem foldl_processLine_block (before body : List Str) (beginLine endLine : Str) (s : State)
    (hbefore : ∀ l ∈ before, includes l beginMarker = false ∧ includes l endMarker = false)
    (hbegin : includes beginLine beginMarker = true)
    (hbody : ∀ l ∈ body, includes l beginMarker = false ∧ includes l endMarker = false)
    (hend : includes endLine endMarker = true ∧ includes endLine beginMarker = false)
    (hs : s.isCollectingMarkdown = false) :
    ((before ++ beginLine :: (body ++ [endLine])).foldl processLine s).markdown =
      joinNL body := by
  rw [List.foldl_append, List.foldl_cons, List.foldl_append]
  obtain ⟨-, -, -⟩ := foldl_processLine_outside before s hbefore hs
  generalize before.foldl processLine s = s1
  have hb : (processLine s1 beginLine).isCollectingMarkdown = true ∧
      (processLine s1 beginLine).markdownLines = [] := by
    unfold processLine
    simp [hbegin]
  obtain ⟨-, -, h3⟩ := foldl_processLine_inside body (processLine s1 beginLine) hbody hb.1
  rw [hb.2, List.nil_append] at h3
  generalize body.foldl processLine (processLine s1 beginLine) = s2 at h3
  simp [processLine, hend.1, hend.2, h3]

/-- The stdout handler on a whole text received by the freshly set-up task. -/
theorem appendStdout_initial (socketId outputPath : Str) (lines : List Str) (tail : Str)
    (hl : ∀ l ∈ lines, '\n' ∉ l) (ht : '\n' ∉ tail) :
    appendStdout (parseDeepWiki socketId outputPath) (streamOf lines ++ tail) =
      { lines.foldl processLine (parseDeepWiki socketId outputPath) with
        stdoutBuffer := tail } := by
  rw [appendStdout_stream _ _ lines tail (by simp [parseDeepWiki]) hl ht,
    foldl_processLine_setBuffer]

/-! ## Decoding -/

theorem char_range (c : Char) :
    c.toNat < 0xD800 ∨ (0xDFFF < c.toNat ∧ c.toNat < 0x110000) := by
  have h := c.valid
  simp only [Char.toNat]
  exact h

theorem utf8Decode_lead (b : Nat) (bs : Bytes) (st : Utf8State)
    (h : utf8Lead b = .lead st) :
    utf8Decode none (b :: bs) = utf8Decode (some st) bs := by
  rw [utf8Decode, h]

theorem utf8Decode_last (st : Utf8State) (b : Nat) (bs : Bytes)
    (h : st.lower ≤ b ∧ b ≤ st.upper) (hn : st.needed = 1) :
    utf8Decode (some st) (b :: bs) =
      Char.ofNat (st.codePoint * 0x40 + (b - 0x80)) :: utf8Decode none bs := by
  rw [utf8Decode, if_pos h, if_pos hn]

theorem utf8Decode_more (st : Utf8State) (b : Nat) (bs : Bytes)
    (h : st.lower ≤ b ∧ b ≤ st.upper) (hn : st.needed ≠ 1) :
    utf8Decode (some st) (b :: bs) =
      utf8Decode (some ⟨st.codePoint * 0x40 + (b - 0x80), st.needed - 1, 0x80, 0xBF⟩) bs := by
  rw [utf8Decode, if_pos h, if_neg hn]

/-- The bytes of a character decode to the character. -/
theorem utf8Decode_encodeChar (c : Char) (rest : Bytes) :
    utf8Decode none (utf8EncodeChar c ++ rest) = c :: utf8Decode none rest := by
  have hv := char_range c
  have hc : Char.ofNat c.toNat = c := Char.ofNat_toNat c
  unfold utf8EncodeChar
  generalize c.toNat = n at hv hc
  by_cases h1 : n < 0x80
  · simp only [h1, if_true, List.singleton_append, utf8Decode, utf8Lead, hc]
  · by_cases h2 : n < 0x800
    · simp only [h1, h2, if_true, if_false, List.cons_append, List.nil_append]
      have hl : utf8Lead (0xC0 + n / 0x40) = .lead ⟨0xC0 + n / 0x40 - 0xC0, 1, 0x80, 0xBF⟩ := by
        unfold utf8Lead
        rw [if_neg (by omega), if_pos (by omega)]
      rw [utf8Decode_lead _ _ _ hl, utf8Decode_last _ _ _ (by simp only; omega) rfl]
      have e : (0xC0 + n / 0x40 - 0xC0) * 0x40 + (0x80 + n % 0x40 - 0x80) = n := by omega
      simp only [e, hc]
    · by_cases h3 : n < 0x10000
      · simp only [h1, h2, h3, if_true, if_false, List.cons_append, List.nil_append]
        have hl : utf8Lead (0xE0 + n / 0x1000) =
            .lead ⟨0xE0 + n / 0x1000 - 0xE0, 2,
              if 0xE0 + n / 0x1000 = 0xE0 then 0xA0 else 0x80,
              if 0xE0 + n / 0x1000 = 0xED then 0x9F else 0xBF⟩ := by
          unfold utf8Lead
          rw [if_neg (by omega), if_neg (by omega), if_pos (by omega)]
        rw [utf8Decode_lead _ _ _ hl,
          utf8Decode_more _ _ _ (by simp only; split_ifs <;> omega) (by simp),
          utf8Decode_last _ _ _ (by simp only; omega) rfl]
        have e : ((0xE0 + n / 0x1000 - 0xE0) * 0x40 + (0x80 + n / 0x40 % 0x40 - 0x80)) * 0x40 +
            (0x80 + n % 0x40 - 0x80) = n := by omega
        simp only [e, hc]
      · simp only [h1, h2, h3, if_false, List.cons_append, List.nil_append]
        have hl : utf8Lead (0xF0 + n / 0x40000) =
            .lead ⟨0xF0 + n / 0x40000 - 0xF0, 3,
              if 0xF0 + n / 0x40000 = 0xF0 then 0x90 else 0x80,
              if 0xF0 + n / 0x40000 = 0xF4 then 0x8F else 0xBF⟩ := by
          unfold utf8Lead
          rw [if_neg (by omega), if_neg (by omega), if_neg (by omega), if_pos (by omega)]
        rw [utf8Decode_lead _ _ _ hl,
          utf8Decode_more _ _ _ (by simp only; split_ifs <;> omega) (by simp),
          utf8Decode_more _ _ _ (by simp only; omega) (by simp),
          utf8Decode_last _ _ _ (by simp only; omega) rfl]
        have e : (((0xF0 + n / 0x40000 - 0xF0) * 0x40 + (0x80 + n / 0x1000 % 0x40 - 0x80)) * 0x40 +
            (0x80 + n / 0x40 % 0x40 - 0x80)) * 0x40 + (0x80 + n % 0x40 - 0x80) = n := by omega
        simp only [e, hc]

theorem utf8Decode_encode (s : Str) (rest : Bytes) :
    utf8Decode none (utf8Encode s ++ rest) = s ++ utf8Decode none rest := by
  induction s with
  | nil => rfl
  | cons c cs ih =>
    show utf8Decode none ((utf8EncodeChar c ++ utf8Encode cs) ++ rest) = _
    rw [List.append_assoc, utf8Decode_encodeChar, ih]
    rfl

/-- A chunk that holds the bytes of whole characters decodes to those characters. -/
theorem bufferToString_utf8Encode (s : Str) : bufferToString (utf8Encode s) = s := by
  have h := utf8Decode_encode s []
  rw [List.append_nil] at h
  rw [bufferToString, h]
  simp [utf8Decode]

theorem onStdoutData_utf8Encode (s : State) (text : Str) :
    onStdoutData s (utf8Encode text) = appendStdout s text := by
  rw [onStdoutData, bufferToString_utf8Encode]

theorem foldl_onStdoutData_utf8Encode (pieces : List Str) (s : State) :
    (pieces.map utf8Encode).foldl onStdoutData s = pieces.foldl appendStdout s := by
  induction pieces generalizing s with
  | nil => rfl
  | cons p ps ih =>
    rw [List.map_cons, List.foldl_cons, List.foldl_cons, onStdoutData_utf8Encode, ih]

/-! ## The matcher -/

theorem head?_append_of_head? {α : Type} (l m : List α) (a : α) (h : l.head? = some a) :
    (l ++ m).head? = some a := by
  cases l with
  | nil => simp at h
  | cons x xs => simpa using h

theorem head?_flatMap_of_head? {α β : Type} (l : List α) (f : α → List β) (a : α) (b : β)
    (hl : l.head? = some a) (hf : (f a).head? = some b) :
    (l.flatMap f).head? = some b := by
  cases l with
  | nil => simp at hl
  | cons x xs =>
    simp only [List.head?_cons, Option.some.injEq] at hl
    subst hl
    rw [List.flatMap_cons]
    exact head?_append_of_head? _ _ _ hf

theorem exists_of_head?_flatMap {α β : Type} (l : List α) (f : α → List β) (b : β)
    (h : (l.flatMap f).head? = some b) : ∃ a ∈ l, (f a).head? = some b := by
  induction l with
  | nil => simp at h
  | cons x xs ih =>
    rw [List.flatMap_cons] at h
    cases hfx : f x with
    | nil =>
      rw [hfx, List.nil_append] at h
      obtain ⟨a, ha, hb⟩ := ih h
      exact ⟨a, List.mem_cons_of_mem _ ha, hb⟩
    | cons y ys =>
      rw [hfx] at h
      exact ⟨x, by simp, by rw [hfx]; simpa using h⟩

theorem starGreedy_append (p : Char → Bool) (w r : Str) (hw : ∀ c ∈ w, p c = true) :
    ∃ more, starGreedy p (w ++ r) = starGreedy p r ++ more := by
  induction w with
  | nil => exact ⟨[], by simp⟩
  | cons c cs ih =>
    obtain ⟨more, hm⟩ := ih (fun x hx => hw x (List.mem_cons_of_mem _ hx))
    refine ⟨more ++ [c :: (cs ++ r)], ?_⟩
    simp [starGreedy, hw c (by simp), hm]

theorem starGreedy_stop (p : Char → Bool) (r : Str)
    (hr : ∀ c rest, r = c :: rest → p c = false) : starGreedy p r = [r] := by
  cases r with
  | nil => rfl
  | cons c cs => simp [starGreedy, hr c cs rfl]

/-- A greedy repetition first takes all it can. -/
theorem starGreedy_head? (p : Char → Bool) (w r : Str) (hw : ∀ c ∈ w, p c = true)
    (hr : ∀ c rest, r = c :: rest → p c = false) :
    (starGreedy p (w ++ r)).head? = some r := by
  obtain ⟨more, hm⟩ := starGreedy_append p w r hw
  rw [hm, starGreedy_stop p r hr]
  rfl

theorem mem_starGreedy (p : Char → Bool) (s r : Str) (h : r ∈ starGreedy p s) :
    ∃ w, s = w ++ r ∧ ∀ c ∈ w, p c = true := by
  induction s with
  | nil =>
    simp only [starGreedy, List.mem_singleton] at h
    exact ⟨[], by simp [h], by simp⟩
  | cons c cs ih =>
    by_cases hc : p c = true
    · simp only [starGreedy, hc, if_true, List.mem_append, List.mem_singleton] at h
      rcases h with h | h
      · obtain ⟨w, hw, hp⟩ := ih h
        refine ⟨c :: w, by simp [hw], ?_⟩
        intro x hx
        rcases List.mem_cons.1 hx with e | e
        · rw [e]; exact hc
        · exact hp x e
      · exact ⟨[], by simp [h], by simp⟩
    · simp only [starGreedy, hc, if_false, List.mem_singleton, Bool.false_eq_true] at h
      exact ⟨[], by simp [h], by simp⟩

/-- The first choice of a greedy repetition cannot be extended. -/
theorem starGreedy_head?_inv (p : Char → Bool) (s r : Str)
    (h : (starGreedy p s).head? = some r) :
    ∃ w, s = w ++ r ∧ (∀ c ∈ w, p c = true) ∧ ∀ c rest, r = c :: rest → p c = false := by
  induction s generalizing r with
  | nil =>
    simp only [starGreedy, List.head?_cons, Option.some.injEq] at h
    subst h
    exact ⟨[], rfl, by simp, by simp⟩
  | cons c cs ih =>
    by_cases hc : p c = true
    · simp only [starGreedy, hc, if_true] at h
      cases hg : starGreedy p cs with
      | nil =>
        exfalso
        cases cs <;> simp [starGreedy] at hg
        split at hg <;> simp at hg
      | cons y ys =>
        rw [hg] at h
        simp only [List.cons_append, List.head?_cons, Option.some.injEq] at h
        subst h
        obtain ⟨w, hw, hp, hstop⟩ := ih y (by rw [hg]; rfl)
        refine ⟨c :: w, by simp [hw], ?_, hstop⟩
        intro x hx
        rcases List.mem_cons.1 hx with e | e
        · rw [e]; exact hc
        · exact hp x e
    · have hc2 : p c = false := by simpa using hc
      simp only [starGreedy, hc2, Bool.false_eq_true, if_false, List.head?_cons,
        Option.some.injEq] at h
      subst h
      refine ⟨[], rfl, by simp, ?_⟩
      intro x rest hx
      simp only [List.cons.injEq] at hx
      rw [← hx.1]; exact hc2

theorem starLazy_head (p : Char → Bool) (t : Str) : ∃ more, starLazy p t = t :: more := by
  cases t with
  | nil => exact ⟨[], rfl⟩
  | cons c cs => exact ⟨_, rfl⟩

theorem mem_starLazy (p : Char → Bool) (s r : Str) (h : r ∈ starLazy p s) :
    ∃ w, s = w ++ r ∧ ∀ c ∈ w, p c = true := by
  induction s with
  | nil =>
    simp only [starLazy, List.mem_singleton] at h
    exact ⟨[], by simp [h], by simp⟩
  | cons c cs ih =>
    simp only [starLazy, List.mem_cons] at h
    rcases h with h | h
    · exact ⟨[], by simp [h], by simp⟩
    · by_cases hc : p c = true
      · simp only [hc, if_true] at h
        obtain ⟨w, hw, hp⟩ := ih h
        refine ⟨c :: w, by simp [hw], ?_⟩
        intro x hx
        rcases List.mem_cons.1 hx with e | e
        · rw [e]; exact hc
        · exact hp x e
      · simp [hc] at h

/-- A lazy repetition followed by `f` skips the repetitions after which `f` fails. -/
theorem starLazy_flatMap_skip {β : Type} (p : Char → Bool) (f : Str → List β) (s t : Str)
    (hp : ∀ c ∈ s, p c = true)
    (hf : ∀ s1 c s2, s = s1 ++ c :: s2 → f (c :: (s2 ++ t)) = []) :
    (starLazy p (s ++ t)).flatMap f = (starLazy p t).flatMap f := by
  induction s with
  | nil => rfl
  | cons c cs ih =>
    have hc : p c = true := hp c (by simp)
    have h1 : f (c :: (cs ++ t)) = [] := hf [] c cs rfl
    have h2 := ih (fun x hx => hp x (List.mem_cons_of_mem _ hx))
      (fun s1 x s2 e => hf (c :: s1) x s2 (by rw [e]; rfl))
    show (starLazy p (c :: (cs ++ t))).flatMap f = _
    rw [starLazy, if_pos hc, List.flatMap_cons, h1, List.nil_append]
    exact h2

theorem progressRe_eq :
    progressRe = .seq (.chr '[') (.seq (.group (.star isDot false)) reClose) := rfl

theorem run_seq_head? (a b : Re) (s : Str) (ra rb : Str × List Str)
    (ha : (a.run s).head? = some ra) (hb : (b.run ra.1).head? = some rb) :
    ((Re.seq a b).run s).head? = some (rb.1, ra.2 ++ rb.2) := by
  rw [Re.run]
  refine head?_flatMap_of_head? _ _ ra _ ha ?_
  rw [List.head?_map, hb]
  rfl

theorem run_seq_head?_inv (a b : Re) (s : Str) (z : Str × List Str)
    (h : ((Re.seq a b).run s).head? = some z) :
    ∃ ra ∈ a.run s, ∃ rb, (b.run ra.1).head? = some rb ∧ z = (rb.1, ra.2 ++ rb.2) := by
  rw [Re.run] at h
  obtain ⟨ra, hra, hz⟩ := exists_of_head?_flatMap _ _ _ h
  rw [List.head?_map] at hz
  cases hb : (b.run ra.1).head? with
  | none => rw [hb] at hz; simp at hz
  | some rb =>
    rw [hb] at hz
    simp only [Option.map_some', Option.some.injEq] at hz
    exact ⟨ra, hra, rb, hb, hz.symm⟩

theorem run_chr_cons (c : Char) (rest : Str) : (Re.chr c).run (c :: rest) = [(rest, [])] := by
  simp [Re.run]

theorem run_chr_ne (c x : Char) (rest : Str) (h : x ≠ c) : (Re.chr c).run (x :: rest) = [] := by
  simp [Re.run, h]

theorem mem_run_chr (c : Char) (s : Str) (z : Str × List Str) (h : z ∈ (Re.chr c).run s) :
    s = c :: z.1 ∧ z.2 = [] := by
  cases s with
  | nil => simp [Re.run] at h
  | cons x xs =>
    by_cases hx : x = c
    · simp only [Re.run, hx, if_true, List.mem_singleton] at h
      subst h
      exact ⟨by rw [hx], rfl⟩
    · simp [Re.run, hx] at h

theorem run_star_greedy_head? (p : Char → Bool) (w r : Str) (hw : ∀ c ∈ w, p c = true)
    (hr : ∀ c rest, r = c :: rest → p c = false) :
    ((Re.star p true).run (w ++ r)).head? = some (r, []) := by
  rw [Re.run, List.head?_map]
  simp only [if_true]
  rw [starGreedy_head? p w r hw hr]
  rfl

theorem mem_run_star (p : Char → Bool) (greedy : Bool) (s : Str) (z : Str × List Str)
    (h : z ∈ (Re.star p greedy).run s) :
    ∃ w, s = w ++ z.1 ∧ (∀ c ∈ w, p c = true) ∧ z.2 = [] := by
  rw [Re.run, List.mem_map] at h
  obtain ⟨r, hr, hz⟩ := h
  subst hz
  cases greedy with
  | true =>
    obtain ⟨w, hw, hp⟩ := mem_starGreedy p s r (by simpa using hr)
    exact ⟨w, hw, hp, rfl⟩
  | false =>
    obtain ⟨w, hw, hp⟩ := mem_starLazy p s r (by simpa using hr)
    exact ⟨w, hw, hp, rfl⟩

theorem take_append_sub (w r : Str) : (w ++ r).take ((w ++ r).length - r.length) = w := by
  simp

theorem isWhiteSpace_of_isDigit (c : Char) (h : isDigit c = true) : isWhiteSpace c = false := by
  simp only [isDigit, Bool.and_eq_true, decide_eq_true_eq] at h
  simp only [isWhiteSpace, Bool.or_eq_false_iff, beq_eq_false_iff_ne, ne_eq,
    Bool.and_eq_false_imp, decide_eq_true_eq, decide_eq_false_iff_not]
  omega

theorem isDot_eq_true (c : Char) : isDot c = true ↔ isLineTerminator c = false := by
  simp [isDot]

theorem flatMap_map_eq {α β γ : Type} (l : List α) (g : α → β) (f : β → List γ) :
    (l.map g).flatMap f = l.flatMap fun a => f (g a) := by
  induction l with
  | nil => rfl
  | cons x xs ih => simp [List.flatMap_cons, ih]

/-- The first match of `(.*)`: the text up to the first line terminator. -/
theorem run_reMessage (w r : Str) (hw : ∀ c ∈ w, isDot c = true)
    (hr : ∀ c rest, r = c :: rest → isDot c = false) :
    (reMessage.run (w ++ r)).head? = some (r, [w]) := by
  unfold reMessage
  rw [Re.run, List.head?_map, run_star_greedy_head? isDot w r hw hr]
  simp

theorem run_reSpaceMessage (ws2 m : Str) (hws : ∀ c ∈ ws2, isWhiteSpace c = true)
    (hm1 : ∀ c rest, m = c :: rest → isWhiteSpace c = false)
    (hm2 : ∀ c ∈ m, isDot c = true) :
    (reSpaceMessage.run (ws2 ++ m)).head? = some ([], [m]) := by
  unfold reSpaceMessage
  have h1 := run_star_greedy_head? isWhiteSpace ws2 m hws hm1
  have h2 := run_reMessage m [] hm2 (by simp)
  rw [List.append_nil] at h2
  exact run_seq_head? _ _ _ (m, []) ([], [m]) h1 h2

theorem run_rePercent (ws2 m : Str) (hws : ∀ c ∈ ws2, isWhiteSpace c = true)
    (hm1 : ∀ c rest, m = c :: rest → isWhiteSpace c = false)
    (hm2 : ∀ c ∈ m, isDot c = true) :
    (rePercent.run ('%' :: ':' :: (ws2 ++ m))).head? = some ([], [m]) := by
  unfold rePercent
  have h1 := run_reSpaceMessage ws2 m hws hm1 hm2
  have h2 : ((Re.seq (.chr ':') reSpaceMessage).run (':' :: (ws2 ++ m))).head? =
      some ([], [m]) :=
    run_seq_head? _ _ _ (ws2 ++ m, []) ([], [m]) (by rw [run_chr_cons]; rfl) h1
  exact run_seq_head? _ _ _ (':' :: (ws2 ++ m), []) ([], [m]) (by rw [run_chr_cons]; rfl) h2

theorem run_reDigits (d0 : Char) (ds r : Str) (hd0 : isDigit d0 = true)
    (hds : ∀ c ∈ ds, isDigit c = true) (hr : ∀ c rest, r = c :: rest → isDigit c = false) :
    (reDigits.run (d0 :: (ds ++ r))).head? = some (r, [d0 :: ds]) := by
  unfold reDigits
  have h1 : ((Re.cls isDigit).run (d0 :: (ds ++ r))).head? = some (ds ++ r, []) := by
    simp [Re.run, hd0]
  have h2 := run_star_greedy_head? isDigit ds r hds hr
  have h3 := run_seq_head? (.cls isDigit) (.star isDigit true) _ (ds ++ r, []) (r, []) h1 h2
  rw [Re.run, List.head?_map, h3]
  have ht := take_append_sub (d0 :: ds) r
  simp only [List.cons_append] at ht
  simp only [Option.map_some', List.nil_append]
  rw [ht]

theorem run_reSpaceDigits (ws1 : Str) (d0 : Char) (ds ws2 m : Str)
    (hws1 : ∀ c ∈ ws1, isWhiteSpace c = true) (hd0 : isDigit d0 = true)
    (hds : ∀ c ∈ ds, isDigit c = true) (hws2 : ∀ c ∈ ws2, isWhiteSpace c = true)
    (hm1 : ∀ c rest, m = c :: rest → isWhiteSpace c = false)
    (hm2 : ∀ c ∈ m, isDot c = true) :
    (reSpaceDigits.run (ws1 ++ d0 :: (ds ++ '%' :: ':' :: (ws2 ++ m)))).head? =
      some ([], [d0 :: ds, m]) := by
  unfold reSpaceDigits
  have h1 := run_star_greedy_head? isWhiteSpace ws1 (d0 :: (ds ++ '%' :: ':' :: (ws2 ++ m))) hws1
    (by intro c rest e
        simp only [List.cons.injEq] at e
        rw [← e.1]
        exact isWhiteSpace_of_isDigit d0 hd0)
  have h2 := run_reDigits d0 ds ('%' :: ':' :: (ws2 ++ m)) hd0 hds
    (by intro c rest e
        simp only [List.cons.injEq] at e
        rw [← e.1]
        decide)
  have h3 := run_rePercent ws2 m hws2 hm1 hm2
  have h4 := run_seq_head? reDigits rePercent _ _ _ h2 h3
  exact run_seq_head? _ _ _ _ _ h1 h4

theorem run_reClose (ws1 : Str) (d0 : Char) (ds ws2 m : Str)
    (hws1 : ∀ c ∈ ws1, isWhiteSpace c = true) (hd0 : isDigit d0 = true)
    (hds : ∀ c ∈ ds, isDigit c = true) (hws2 : ∀ c ∈ ws2, isWhiteSpace c = true)
    (hm1 : ∀ c rest, m = c :: rest → isWhiteSpace c = false)
    (hm2 : ∀ c ∈ m, isDot c = true) :
    (reClose.run (']' :: (ws1 ++ d0 :: (ds ++ '%' :: ':' :: (ws2 ++ m))))).head? =
      some ([], [d0 :: ds, m]) := by
  unfold reClose
  exact run_seq_head? _ _ _ (_, []) _ (by rw [run_chr_cons]; rfl)
    (run_reSpaceDigits ws1 d0 ds ws2 m hws1 hd0 hds hws2 hm1 hm2)

theorem run_reClose_ne (c : Char) (rest : Str) (h : c ≠ ']') : reClose.run (c :: rest) = [] := by
  unfold reClose
  rw [Re.run, run_chr_ne _ _ _ h]
  rfl

/-- The lazy stage group followed by the rest of the expression: the stage runs up to
the first `]` when the rest matches there. -/
theorem run_stage_head? (s t : Str) (z : Str × List Str)
    (hs1 : ']' ∉ s) (hs2 : ∀ c ∈ s, isDot c = true)
    (hz : (reClose.run t).head? = some z) :
    ((Re.seq (.group (.star isDot false)) reClose).run (s ++ t)).head? =
      some (z.1, s :: z.2) := by
  obtain ⟨w, hw⟩ : ∃ w, reClose.run t = z :: w := by
    cases h : reClose.run t with
    | nil => rw [h] at hz; simp at hz
    | cons y ys =>
      rw [h] at hz
      simp only [List.head?_cons, Option.some.injEq] at hz
      exact ⟨ys, by rw [hz]⟩
  rw [Re.run, Re.run, Re.run]
  simp only [Bool.false_eq_true, if_false, List.map_map, flatMap_map_eq, Function.comp]
  rw [starLazy_flatMap_skip isDot _ s t hs2]
  · obtain ⟨more, hmore⟩ := starLazy_head isDot t
    rw [hmore, List.flatMap_cons, hw]
    simp
  · intro s1 c s2 e
    have hc : c ≠ ']' := by
      intro hc
      apply hs1
      rw [e, hc]
      simp
    rw [run_reClose_ne c _ hc]
    rfl

theorem exec_of_head? (re : Re) (c : Char) (cs : Str) (m : Str × List Str)
    (h : (re.run (c :: cs)).head? = some m) : re.exec (c :: cs) = some m.2 := by
  rw [Re.exec, h]

theorem exec_some_inv (re : Re) (line : Str) (caps : List Str)
    (h : re.exec line = some caps) :
    ∃ before x rest, line = before ++ x ∧ (re.run x).head? = some (rest, caps) := by
  induction line with
  | nil =>
    rw [Re.exec] at h
    cases hr : (re.run []).head? with
    | none => rw [hr] at h; simp at h
    | some m =>
      rw [hr] at h
      simp only [Option.map_some', Option.some.injEq] at h
      exact ⟨[], [], m.1, rfl, by rw [hr, ← h]⟩
  | cons c cs ih =>
    rw [Re.exec] at h
    cases hr : (re.run (c :: cs)).head? with
    | none =>
      rw [hr] at h
      obtain ⟨before, x, rest, hl, hx⟩ := ih h
      exact ⟨c :: before, x, rest, by rw [hl]; rfl, hx⟩
    | some m =>
      rw [hr] at h
      simp only [Option.some.injEq] at h
      exact ⟨[], c :: cs, m.1, rfl, by rw [hr, ← h]⟩

/-- The match of a well-formed progress line. -/
theorem progressMatch_progressLine (stage ws1 : Str) (d0 : Char) (ds ws2 message : Str)
    (hs1 : ']' ∉ stage) (hs2 : ∀ c ∈ stage, isLineTerminator c = false)
    (hws1 : ∀ c ∈ ws1, isWhiteSpace c = true) (hd0 : isDigit d0 = true)
    (hds : ∀ c ∈ ds, isDigit c = true) (hws2 : ∀ c ∈ ws2, isWhiteSpace c = true)
    (hm1 : ∀ c rest, message = c :: rest → isWhiteSpace c = false)
    (hm2 : ∀ c ∈ message, isLineTerminator c = false) :
    progressMatch (progressLine stage ws1 (d0 :: ds) ws2 message) =
      some (stage, d0 :: ds, message) := by
  have hline : progressLine stage ws1 (d0 :: ds) ws2 message =
      '[' :: (stage ++ ']' :: (ws1 ++ d0 :: (ds ++ '%' :: ':' :: (ws2 ++ message)))) := by
    simp [progressLine]
  have h1 := run_reClose ws1 d0 ds ws2 message hws1 hd0 hds hws2 hm1
    (fun c hc => (isDot_eq_true c).2 (hm2 c hc))
  have h2 := run_stage_head? stage _ _ hs1 (fun c hc => (isDot_eq_true c).2 (hs2 c hc)) h1
  have h3 : (progressRe.run ('[' :: (stage ++ ']' :: (ws1 ++ d0 ::
      (ds ++ '%' :: ':' :: (ws2 ++ message)))))).head? =
        some ([], [stage, d0 :: ds, message]) := by
    rw [progressRe_eq]
    exact run_seq_head? _ _ _ (_, []) _ (by rw [run_chr_cons]; rfl) h2
  rw [progressMatch, hline, exec_of_head? _ _ _ _ h3]

theorem takeWhile_of_all (p : Char → Bool) (l : Str) (h : ∀ c ∈ l, p c = true) :
    l.takeWhile p = l := by
  induction l with
  | nil => rfl
  | cons c cs ih =>
    rw [List.takeWhile_cons, h c (by simp), if_pos rfl,
      ih (fun x hx => h x (List.mem_cons_of_mem _ hx))]

theorem parseInt_digits (d0 : Char) (ds : Str) (hd0 : isDigit d0 = true)
    (hds : ∀ c ∈ ds, isDigit c = true) :
    parseInt (d0 :: ds) = toNumber (digitsValue (d0 :: ds)) := by
  have h : (d0 :: ds).takeWhile isDigit = d0 :: ds := by
    apply takeWhile_of_all
    intro c hc
    rcases List.mem_cons.1 hc with e | e
    · rw [e]; exact hd0
    · exact hds c e
  rw [parseInt, h]

theorem toNumber_small (n : Nat) (h : n < 2 ^ 53) : toNumber n = .fin n := by
  rw [toNumber, if_pos h]

theorem mem_run_group_star (p : Char → Bool) (greedy : Bool) (s : Str) (z : Str × List Str)
    (h : z ∈ (Re.group (.star p greedy)).run s) :
    ∃ w, s = w ++ z.1 ∧ (∀ c ∈ w, p c = true) ∧ z.2 = [w] := by
  rw [Re.run, List.mem_map] at h
  obtain ⟨y, hy, hz⟩ := h
  obtain ⟨w, hw, hp, hcaps⟩ := mem_run_star p greedy s y hy
  subst hz
  refine ⟨w, hw, hp, ?_⟩
  simp only [hcaps]
  rw [hw, take_append_sub]

theorem mem_run_cls (p : Char → Bool) (s : Str) (z : Str × List Str)
    (h : z ∈ (Re.cls p).run s) : ∃ c, s = c :: z.1 ∧ p c = true ∧ z.2 = [] := by
  cases s with
  | nil => simp [Re.run] at h
  | cons x xs =>
    by_cases hx : p x = true
    · simp only [Re.run, hx, if_true, List.mem_singleton] at h
      subst h
      exact ⟨x, rfl, hx, rfl⟩
    · simp [Re.run, hx] at h

theorem mem_run_seq (a b : Re) (s : Str) (z : Str × List Str) (h : z ∈ (Re.seq a b).run s) :
    ∃ ra ∈ a.run s, ∃ rb ∈ b.run ra.1, z = (rb.1, ra.2 ++ rb.2) := by
  rw [Re.run, List.mem_flatMap] at h
  obtain ⟨ra, hra, hz⟩ := h
  rw [List.mem_map] at hz
  obtain ⟨rb, hrb, e⟩ := hz
  exact ⟨ra, hra, rb, hrb, e.symm⟩

theorem mem_run_reDigits (s : Str) (z : Str × List Str) (h : z ∈ reDigits.run s) :
    ∃ d0 ds, s = d0 :: (ds ++ z.1) ∧ isDigit d0 = true ∧ (∀ c ∈ ds, isDigit c = true) ∧
      z.2 = [d0 :: ds] := by
  unfold reDigits at h
  rw [Re.run, List.mem_map] at h
  obtain ⟨y, hy, hz⟩ := h
  obtain ⟨ra, hra, rb, hrb, e⟩ := mem_run_seq _ _ _ _ hy
  obtain ⟨d0, hs, hd0, hc1⟩ := mem_run_cls _ _ _ hra
  obtain ⟨ds, hds, hp, hc2⟩ := mem_run_star _ _ _ _ hrb
  subst hz
  have hy1 : y.1 = rb.1 := by rw [e]
  have hy2 : y.2 = [] := by rw [e, hc1, hc2]; rfl
  have hs2 : s = (d0 :: ds) ++ rb.1 := by rw [hs, hds]; rfl
  refine ⟨d0, ds, by rw [hs2, hy1]; rfl, hd0, hp, ?_⟩
  simp only [hy1, hy2]
  rw [hs2, take_append_sub]

theorem head?_run_reMessage_inv (s : Str) (z : Str × List Str)
    (h : (reMessage.run s).head? = some z) :
    ∃ w, s = w ++ z.1 ∧ (∀ c ∈ w, isDot c = true) ∧
      (∀ c rest, z.1 = c :: rest → isDot c = false) ∧ z.2 = [w] := by
  unfold reMessage at h
  rw [Re.run, List.head?_map, Re.run, List.head?_map] at h
  simp only [if_true] at h
  cases hg : (starGreedy isDot s).head? with
  | none => rw [hg] at h; simp at h
  | some r =>
    rw [hg] at h
    simp only [Option.map_some', Option.some.injEq] at h
    obtain ⟨w, hw, hp, hstop⟩ := starGreedy_head?_inv isDot s r hg
    subst h
    refine ⟨w, hw, hp, hstop, ?_⟩
    show [s.take (s.length - r.length)] = [w]
    rw [hw, take_append_sub]

/-- What the first match of the progress expression at the start of a text looks like. -/
theorem progressRe_head?_inv (x rest : Str) (caps : List Str)
    (h : (progressRe.run x).head? = some (rest, caps)) :
    ∃ stage ws1 d0 ds ws2 message,
      x = '[' :: (stage ++ ']' :: (ws1 ++ d0 :: (ds ++ '%' :: ':' :: (ws2 ++ (message ++ rest)))))
      ∧ caps = [stage, d0 :: ds, message]
      ∧ (∀ c ∈ stage, isDot c = true)
      ∧ (∀ c ∈ ws1, isWhiteSpace c = true)
      ∧ isDigit d0 = true ∧ (∀ c ∈ ds, isDigit c = true)
      ∧ (∀ c ∈ ws2, isWhiteSpace c = true)
      ∧ (∀ c ∈ message, isDot c = true)
      ∧ (∀ c more, rest = c :: more → isDot c = false) := by
  rw [progressRe_eq] at h
  obtain ⟨r1, hr1, z1, hz1, e1⟩ := run_seq_head?_inv _ _ _ _ h
  obtain ⟨hx1, hc1⟩ := mem_run_chr _ _ _ hr1
  obtain ⟨r2, hr2, z2, hz2, e2⟩ := run_seq_head?_inv _ _ _ _ hz1
  obtain ⟨stage, hx2, hstage, hc2⟩ := mem_run_group_star _ _ _ _ hr2
  unfold reClose at hz2
  obtain ⟨r3, hr3, z3, hz3, e3⟩ := run_seq_head?_inv _ _ _ _ hz2
  obtain ⟨hx3, hc3⟩ := mem_run_chr _ _ _ hr3
  unfold reSpaceDigits at hz3
  obtain ⟨r4, hr4, z4, hz4, e4⟩ := run_seq_head?_inv _ _ _ _ hz3
  obtain ⟨ws1, hx4, hws1, hc4⟩ := mem_run_star _ _ _ _ hr4
  obtain ⟨r5, hr5, z5, hz5, e5⟩ := run_seq_head?_inv _ _ _ _ hz4
  obtain ⟨d0, ds, hx5, hd0, hds, hc5⟩ := mem_run_reDigits _ _ hr5
  unfold rePercent at hz5
  obtain ⟨r6, hr6, z6, hz6, e6⟩ := run_seq_head?_inv _ _ _ _ hz5
  obtain ⟨hx6, hc6⟩ := mem_run_chr _ _ _ hr6
  obtain ⟨r7, hr7, z7, hz7, e7⟩ := run_seq_head?_inv _ _ _ _ hz6
  obtain ⟨hx7, hc7⟩ := mem_run_chr _ _ _ hr7
  unfold reSpaceMessage at hz7
  obtain ⟨r8, hr8, z8, hz8, e8⟩ := run_seq_head?_inv _ _ _ _ hz7
  obtain ⟨ws2, hx8, hws2, hc8⟩ := mem_run_star _ _ _ _ hr8
  obtain ⟨message, hx9, hmessage, hstop, hc9⟩ := head?_run_reMessage_inv _ _ hz8
  have hrest : rest = z8.1 := by
    have := congrArg Prod.fst e1
    simp only [e2, e3, e4, e5, e6, e7, e8] at this
    exact this
  have hcaps : caps = [stage, d0 :: ds, message] := by
    have := congrArg Prod.snd e1
    simp only [e2, e3, e4, e5, e6, e7, e8, hc1, hc2, hc3, hc4, hc5, hc6, hc7, hc8, hc9] at this
    simpa using this
  refine ⟨stage, ws1, d0, ds, ws2, message, ?_, hcaps, hstage, hws1, hd0, hds, hws2,
    hmessage, ?_⟩
  · rw [hx1, hx2, hx3, hx4, hx5, hx6, hx7, hx8, hx9, hrest]
  · rw [hrest]; exact hstop

/-! ## Events -/

theorem processLine_errorOutput (s : State) (line : Str) :
    (processLine s line).errorOutput = s.errorOutput := by
  unfold processLine
  split_ifs <;> try rfl
  cases progressEvent line <;> rfl

theorem foldl_processLine_errorOutput (lines : List Str) (s : State) :
    (lines.foldl processLine s).errorOutput = s.errorOutput := by
  induction lines generalizing s with
  | nil => rfl
  | cons l ls ih => simp only [List.foldl_cons, ih, processLine_errorOutput]

theorem onStdoutData_errorOutput (s : State) (data : Bytes) :
    (onStdoutData s data).errorOutput = s.errorOutput := by
  unfold onStdoutData appendStdout
  simp only [foldl_processLine_errorOutput]

/-- After output events only, `errorOutput` holds the stderr text. -/
theorem run_errorOutput (events : List Event) (s : State)
    (h : ∀ e ∈ events, e.isData = true) :
    (run s events).errorOutput = s.errorOutput ++ stderrText events := by
  induction events generalizing s with
  | nil => simp [run, stderrText]
  | cons e es ih =>
    have h2 : ∀ x ∈ es, x.isData = true := fun x hx => h x (List.mem_cons_of_mem _ hx)
    have he := h e (by simp)
    have ih2 := ih (step s e) h2
    simp only [run, List.foldl_cons] at ih2 ⊢
    rw [ih2]
    cases e with
    | stdoutData data => simp [step, stderrText, onStdoutData_errorOutput]
    | stderrData data => simp [step, stderrText, onStderrData]
    | close code fs => simp [Event.isData] at he
    | cancel => simp [Event.isData] at he
    | disconnect socketId => simp [Event.isData] at he

theorem onStdoutData_terminal (s : State) (data : Bytes) :
    (onStdoutData s data).emitted.filter Emit.isTerminal =
      s.emitted.filter Emit.isTerminal := by
  unfold onStdoutData appendStdout
  simp only [foldl_processLine_terminal]

/-- Output events emit no `completed` and no `failed` notification. -/
theorem run_data_terminal (events : List Event) (s : State)
    (h : ∀ e ∈ events, e.isData = true) :
    (run s events).emitted.filter Emit.isTerminal = s.emitted.filter Emit.isTerminal := by
  induction events generalizing s with
  | nil => rfl
  | cons e es ih =>
    have h2 : ∀ x ∈ es, x.isData = true := fun x hx => h x (List.mem_cons_of_mem _ hx)
    have he := h e (by simp)
    have ih2 := ih (step s e) h2
    simp only [run, List.foldl_cons] at ih2 ⊢
    rw [ih2]
    cases e with
    | stdoutData data => exact onStdoutData_terminal s data
    | stderrData data => rfl
    | close code fs => simp [Event.isData] at he
    | cancel => simp [Event.isData] at he
    | disconnect socketId => simp [Event.isData] at he

theorem run_append (s : State) (as bs : List Event) :
    run s (as ++ bs) = run (run s as) bs := by
  simp [run]

theorem run_stdout (s : State) (chunks : List Bytes) :
    run s (chunks.map Event.stdoutData) = chunks.foldl onStdoutData s := by
  induction chunks generalizing s with
  | nil => rfl
  | cons c cs ih =>
    simp only [List.map_cons, List.foldl_cons]
    exact ih (onStdoutData s c)

theorem run_stdout_close (s : State) (chunks : List Bytes) (code : Option Int)
    (fs : FsOutcome) :
    run s (chunks.map Event.stdoutData ++ [.close code fs]) =
      onClose (chunks.foldl onStdoutData s) code fs := by
  rw [run_append, run_stdout]
  rfl

/-! ## The claims -/

/-- C10, as stated, fails twice.  A stream cut inside the bytes of a character of the
begin marker does not end in the state of the same stream fed as one chunk; and the
line `"[x] 5%: --------- Markdown 结束 ---------"`, which lies outside the payload block
because no block is open, is a progress line for which nothing is emitted. -/
theorem stdout_chunks_not_independent :
    (¬ ∀ (socketId outputPath t : Str) (chunks : List Bytes),
        chunks.flatten = utf8Encode t →
        chunks.foldl onStdoutData (parseDeepWiki socketId outputPath) =
          onStdoutData (parseDeepWiki socketId outputPath) (utf8Encode t)) ∧
    (¬ ∀ (socketId outputPath t : Str) (chunks : List Bytes),
        chunks.flatten = utf8Encode t →
        (chunks.foldl onStdoutData (parseDeepWiki socketId outputPath)).emitted =
          ((outsideBlock false (terminatedLines [] t)).filterMap progressEvent).map
            progressNotification) := by
  constructor
  · intro h
    have h1 := h [] [] "--------- Markdown 内容 ---------\n".toList
      [utf8Encode "--------- Markdown ".toList ++ [0xE5],
        [0x86, 0x85] ++ utf8Encode "容 ---------\n".toList] (by decide)
    exact absurd h1 (by decide)
  · intro h
    have h1 := h [] [] "[x] 5%: --------- Markdown 结束 ---------\n".toList
      [utf8Encode "[x] 5%: --------- Markdown 结束 ---------\n".toList] (by decide)
    exact absurd h1 (by decide)

/-- C10, amended: the stdout handler does not depend on chunk boundaries that fall
between characters, and keeps the order of the lines.  For every text cut into pieces
at any characters (inside a line or a marker too), feeding the UTF-8 bytes of the
pieces one by one to a freshly set-up task gives the same state (collecting flag,
payload lines, payload, held-back buffer, task record, notifications) as feeding the
bytes of the whole text as one chunk, and the notifications emitted are the progress
events of the newline-terminated lines of the text that lie outside the payload block
and do not hold the end marker, in the order of the lines. -/
theorem stdout_chunks_independent (socketId outputPath : Str) (pieces : List Str) :
    (pieces.map utf8Encode).foldl onStdoutData (parseDeepWiki socketId outputPath) =
        onStdoutData (parseDeepWiki socketId outputPath) (utf8Encode pieces.flatten) ∧
    ((pieces.map utf8Encode).foldl onStdoutData (parseDeepWiki socketId outputPath)).emitted =
      (((outsideBlock false (terminatedLines [] pieces.flatten)).filter
        fun l => !includes l endMarker).filterMap progressEvent).map
          progressNotification := by
  have h1 : (pieces.map utf8Encode).foldl onStdoutData (parseDeepWiki socketId outputPath) =
      onStdoutData (parseDeepWiki socketId outputPath) (utf8Encode pieces.flatten) := by
    rw [foldl_onStdoutData_utf8Encode, onStdoutData_utf8Encode]
    exact foldl_appendStdout pieces (parseDeepWiki socketId outputPath)
      (by simp [parseDeepWiki])
  refine ⟨h1, ?_⟩
  obtain ⟨lines, tail, ht, hl, htail⟩ := exists_stream pieces.flatten
  rw [h1, onStdoutData_utf8Encode, ht,
    appendStdout_initial socketId outputPath lines tail hl htail,
    terminatedLines_stream lines tail hl htail]
  show (lines.foldl processLine (parseDeepWiki socketId outputPath)).emitted = _
  rw [foldl_processLine_emitted]
  rfl

/-- C1, as stated, fails: the line that holds the payload-end marker may also hold the
payload-begin marker; the handler then takes it for a begin line, no payload is
completed, nothing is written and no completed notification is emitted. -/
theorem payload_end_line_with_begin_marker :
    ¬ ∀ (socketId outputPath : Str) (before body : List Str) (beginLine endLine : Str)
        (chunks : List Bytes) (n : Nat),
        (∀ l ∈ before, '\n' ∉ l ∧ includes l beginMarker = false ∧
          includes l endMarker = false) →
        ('\n' ∉ beginLine ∧ includes beginLine beginMarker = true) →
        (∀ l ∈ body, '\n' ∉ l ∧ includes l beginMarker = false ∧
          includes l endMarker = false) →
        ('\n' ∉ endLine ∧ includes endLine endMarker = true) →
        trim (joinNL body) ≠ [] →
        chunks.flatten = utf8Encode (streamOf (before ++ beginLine :: (body ++ [endLine]))) →
        n ≠ 0 →
        (run (parseDeepWiki socketId outputPath)
            (chunks.map Event.stdoutData ++ [.close (some 0) (.size n)])).task.status =
          .completed ∧
        (run (parseDeepWiki socketId outputPath)
            (chunks.map Event.stdoutData ++ [.close (some 0) (.size n)])).file =
          some (joinNL body) ∧
        (run (parseDeepWiki socketId outputPath)
            (chunks.map Event.stdoutData ++ [.close (some 0) (.size n)])).emitted.filter
          Emit.isTerminal = [.completed "解析成功".toList] := by
  intro h
  have h1 := h [] [] [] ["Hello".toList] beginMarker
    "--------- Markdown 结束 --------- Markdown 内容 ---------".toList
    [utf8Encode (streamOf [beginMarker, "Hello".toList,
      "--------- Markdown 结束 --------- Markdown 内容 ---------".toList])] 5
    (by decide) (by decide) (by decide) (by decide) (by decide) (by decide) (by decide)
  exact absurd h1.2.1 (by decide)

/-- A payload block whose stream is cut inside the bytes of a character of the begin
marker: each chunk is decoded alone, the marker is not recognised, nothing is written
and a failed notification is emitted at the close with code 0. -/
theorem payload_block_cut_inside_character :
    (run (parseDeepWiki "socket".toList "temp/task.md".toList)
        ([utf8Encode "--------- Markdown ".toList ++ [0xE5],
          [0x86, 0x85] ++
            utf8Encode "容 ---------\nHello\n--------- Markdown 结束 ---------\n".toList].map
          Event.stdoutData ++ [.close (some 0) (.size 5)])).file = none ∧
    (run (parseDeepWiki "socket".toList "temp/task.md".toList)
        ([utf8Encode "--------- Markdown ".toList ++ [0xE5],
          [0x86, 0x85] ++
            utf8Encode "容 ---------\nHello\n--------- Markdown 结束 ---------\n".toList].map
          Event.stdoutData ++ [.close (some 0) (.size 5)])).emitted =
      [.failed "解析成功，但Markdown内容为空，请重试".toList] := by
  decide

/-- C1, amended: for a stdout stream made of lines holding neither marker, then a line
holding the begin marker, then body lines holding neither marker, then a line holding
the end marker and not the begin marker, every line newline-terminated, the body joined
by line feeds being non-blank after trimming, and for every cut of the stream into
pieces between characters, each piece arriving as the chunk of its UTF-8 bytes: when
the process closes with code 0 and the file write succeeds, the status is completed,
the content written is exactly the body joined by line feeds, and the one terminal
notification is the completed one. -/
theorem payload_block_completed (socketId outputPath : Str) (before body : List Str)
    (beginLine endLine : Str) (pieces : List Str) (n : Nat)
    (hbefore : ∀ l ∈ before, '\n' ∉ l ∧ includes l beginMarker = false ∧
      includes l endMarker = false)
    (hbegin : '\n' ∉ beginLine ∧ includes beginLine beginMarker = true)
    (hbody : ∀ l ∈ body, '\n' ∉ l ∧ includes l beginMarker = false ∧
      includes l endMarker = false)
    (hend : '\n' ∉ endLine ∧ includes endLine endMarker = true ∧
      includes endLine beginMarker = false)
    (hpayload : trim (joinNL body) ≠ [])
    (hpieces : pieces.flatten = streamOf (before ++ beginLine :: (body ++ [endLine])))
    (hn : n ≠ 0) :
    (run (parseDeepWiki socketId outputPath)
        ((pieces.map utf8Encode).map Event.stdoutData ++
          [.close (some 0) (.size n)])).task.status = .completed ∧
    (run (parseDeepWiki socketId outputPath)
        ((pieces.map utf8Encode).map Event.stdoutData ++
          [.close (some 0) (.size n)])).file = some (joinNL body) ∧
    (run (parseDeepWiki socketId outputPath)
        ((pieces.map utf8Encode).map Event.stdoutData ++
          [.close (some 0) (.size n)])).emitted.filter Emit.isTerminal =
      [.completed "解析成功".toList] := by
  have hlines : ∀ l ∈ before ++ beginLine :: (body ++ [endLine]), '\n' ∉ l := by
    intro l hl
    rcases List.mem_append.1 hl with h | h
    · exact (hbefore l h).1
    · rcases List.mem_cons.1 h with h | h
      · rw [h]; exact hbegin.1
      · rcases List.mem_append.1 h with h | h
        · exact (hbody l h).1
        · rw [List.mem_singleton.1 h]; exact hend.1
  have hfeed : (pieces.map utf8Encode).foldl onStdoutData
      (parseDeepWiki socketId outputPath) =
      { (before ++ beginLine :: (body ++ [endLine])).foldl processLine
          (parseDeepWiki socketId outputPath) with stdoutBuffer := [] } := by
    rw [foldl_onStdoutData_utf8Encode,
      foldl_appendStdout pieces _ (by simp [parseDeepWiki]), hpieces]
    have := appendStdout_initial socketId outputPath _ [] hlines (by simp)
    rw [List.append_nil] at this
    exact this
  have hmd := foldl_processLine_block before body beginLine endLine
    (parseDeepWiki socketId outputPath) (fun l hl => (hbefore l hl).2) hbegin.2
    (fun l hl => (hbody l hl).2) hend.2 rfl
  have hterm := foldl_processLine_terminal (before ++ beginLine :: (body ++ [endLine]))
    (parseDeepWiki socketId outputPath)
  rw [run_stdout_close, hfeed]
  generalize (before ++ beginLine :: (body ++ [endLine])).foldl processLine
    (parseDeepWiki socketId outputPath) = s at hmd hterm
  have hne : joinNL body ≠ [] := by
    intro e
    apply hpayload
    rw [e]
    rfl
  have hterm2 : s.emitted.filter Emit.isTerminal = [] := by
    rw [hterm]; rfl
  simp [onClose, hmd, hne, hpayload, hn, List.filter_append, hterm2, Emit.isTerminal]

/-- Witness of C1: the body `Hello`, `World`, after a progress line, with the stream cut
inside the begin marker between two characters, is stored as exactly `"Hello\nWorld"`. -/
theorem payload_block_completed_witness :
    (run (parseDeepWiki "socket".toList "temp/task.md".toList)
        ((["[fetch] 50%: working\n--------- Markdown 内".toList,
          "容 ---------\nHello\nWorld\n--------- Markdown 结束 ---------\n".toList].map
            utf8Encode).map Event.stdoutData ++ [.close (some 0) (.size 11)])).file =
      some "Hello\nWorld".toList :=
  (payload_block_completed "socket".toList "temp/task.md".toList
    ["[fetch] 50%: working".toList] ["Hello".toList, "World".toList] beginMarker endMarker
    ["[fetch] 50%: working\n--------- Markdown 内".toList,
      "容 ---------\nHello\nWorld\n--------- Markdown 结束 ---------\n".toList] 11
    (by decide) (by decide) (by decide) (by decide) (by decide) (by decide)
    (by decide)).2.1

/-- C2: on the stream `"[fetch]\n50%: working\n"` followed by a close with code 0, the
close handler records the empty-payload error and emits the failed notification, but
the status it has set stays `completed`. -/
theorem truncated_stream_status_completed (fs : FsOutcome) :
    (run (parseDeepWiki "socket".toList "temp/task.md".toList)
        [.stdoutData (utf8Encode "[fetch]\n50%: working\n".toList), .close (some 0) fs]).task.status =
      .completed ∧
    (run (parseDeepWiki "socket".toList "temp/task.md".toList)
        [.stdoutData (utf8Encode "[fetch]\n50%: working\n".toList), .close (some 0) fs]).task.error =
      .str "解析成功，但Markdown内容为空".toList ∧
    (run (parseDeepWiki "socket".toList "temp/task.md".toList)
        [.stdoutData (utf8Encode "[fetch]\n50%: working\n".toList), .close (some 0) fs]).emitted =
      [.failed "解析成功，但Markdown内容为空，请重试".toList] :=
  ⟨rfl, rfl, rfl⟩

/-- C3: a running task is cancelled, its status is `cancelled`; the close event of the
killed process then overwrites the status with `failed`. -/
theorem cancelled_then_close_status_failed (fs : FsOutcome) :
    (run (parseDeepWiki "socket".toList "temp/task.md".toList) [.cancel]).task.status =
      .cancelled ∧
    (run (parseDeepWiki "socket".toList "temp/task.md".toList)
        [.cancel, .close none fs]).task.status = .failed :=
  ⟨rfl, rfl⟩

/-- C4: cancelling a running task and then receiving the close event of the killed
process emits two failed notifications. -/
theorem cancel_then_close_two_failed (fs : FsOutcome) :
    (run (parseDeepWiki "socket".toList "temp/task.md".toList)
        [.cancel, .close none fs]).emitted.filter Emit.isTerminal =
      [.failed "任务已取消".toList, .failed "解析失败: 未知错误".toList] :=
  rfl

/-- C5: on a task whose status is `completed` and whose process was never killed, the
cancel route sets the status to `cancelled` and emits a failed notification; the output
path and the recorded error stay as they are. -/
theorem cancel_completed_task (s : State) (hstatus : s.task.status = .completed)
    (hkilled : s.task.process.killed = false) :
    (cancelTask s).task.status = .cancelled ∧
    (cancelTask s).task.status ≠ s.task.status ∧
    (cancelTask s).emitted = s.emitted ++ [.failed "任务已取消".toList] ∧
    (cancelTask s).task.outputPath = s.task.outputPath ∧
    (cancelTask s).task.error = s.task.error := by
  simp [cancelTask, hkilled, hstatus]

/-- Witness of C5: a task completed with the payload `Hello`, then cancelled. -/
theorem cancel_completed_task_witness :
    (run (parseDeepWiki "socket".toList "temp/task.md".toList)
        [.stdoutData (utf8Encode "--------- Markdown 内容 ---------\nHello\n--------- Markdown 结束 ---------\n".toList),
          .close (some 0) (.size 5), .cancel]).task.status = .cancelled :=
  (cancel_completed_task
    (run (parseDeepWiki "socket".toList "temp/task.md".toList)
      [.stdoutData (utf8Encode "--------- Markdown 内容 ---------\nHello\n--------- Markdown 结束 ---------\n".toList),
        .close (some 0) (.size 5)])
    (by decide) (by decide)).1

/-- C9: a payload block whose end-marker line lacks the final line feed is not
completed at the close with code 0 (nothing is written, a failed notification is
emitted), while the same stream followed by a line feed is completed with the payload. -/
theorem unterminated_end_marker_dropped :
    (run (parseDeepWiki "socket".toList "temp/task.md".toList)
        [.stdoutData (utf8Encode "--------- Markdown 内容 ---------\nHello\n--------- Markdown 结束 ---------".toList),
          .close (some 0) (.size 5)]).file = none ∧
    (run (parseDeepWiki "socket".toList "temp/task.md".toList)
        [.stdoutData (utf8Encode "--------- Markdown 内容 ---------\nHello\n--------- Markdown 结束 ---------".toList),
          .close (some 0) (.size 5)]).emitted =
      [.failed "解析成功，但Markdown内容为空，请重试".toList] ∧
    (run (parseDeepWiki "socket".toList "temp/task.md".toList)
        [.stdoutData (utf8Encode "--------- Markdown 内容 ---------\nHello\n--------- Markdown 结束 ---------\n".toList),
          .close (some 0) (.size 5)]).file = some "Hello".toList ∧
    (run (parseDeepWiki "socket".toList "temp/task.md".toList)
        [.stdoutData (utf8Encode "--------- Markdown 内容 ---------\nHello\n--------- Markdown 结束 ---------\n".toList),
          .close (some 0) (.size 5)]).emitted = [.completed "解析成功".toList] := by
  decide

/-- C6, as stated, fails: the dot of the expression stops at a line terminator, so the
message `"done\r"` of the line `"[render] 100%: done\r"` is read as `"done"`. -/
theorem progress_message_carriage_return :
    ¬ ∀ (stage ws1 digits ws2 message : Str),
        ']' ∉ stage → digits ≠ [] → (∀ c ∈ digits, isDigit c = true) →
        (∀ c ∈ ws1, isWhiteSpace c = true) → (∀ c ∈ ws2, isWhiteSpace c = true) →
        (∀ c rest, message = c :: rest → isWhiteSpace c = false) →
        progressEvent (progressLine stage ws1 digits ws2 message) =
          some (stage, .fin (digitsValue digits), message) := by
  intro h
  have h1 := h "render".toList " ".toList "100".toList " ".toList "done\r".toList
    (by decide) (by decide) (by decide) (by decide) (by decide)
    (by intro c rest e
        simp only [String.toList, List.cons.injEq] at e
        rw [← e.1]
        decide)
  exact absurd h1 (by decide)

/-- The line `"[render] 100%: done\r"` yields the message `"done"`. -/
theorem progressEvent_carriage_return :
    progressEvent "[render] 100%: done\r".toList =
      some ("render".toList, .fin 100, "done".toList) := by
  decide

/-- A stage that holds a carriage return is not matched. -/
theorem progressEvent_stage_carriage_return :
    progressEvent "[ren\rder] 100%: done".toList = none := by
  decide

set_option maxRecDepth 100000 in
/-- Digits beyond the precision of a Number are rounded by `parseInt`. -/
theorem progressEvent_large_digits :
    progressEvent "[render] 9007199254740993%: done".toList =
      some ("render".toList, .fin 9007199254740992, "done".toList) := by
  decide

/-- C6, amended: for every stage text holding no `]` and no line terminator, every
non-empty string of ASCII digits, every two runs of white space and every message that
does not start with white space and holds no line terminator, the line
`"[" stage "]" ws digits "%:" ws message` yields the event with that stage, that
message, and as progress the Number nearest to the base-10 value of the digits, which
is that value, unclamped, whenever it is below `2^53`. -/
theorem progressEvent_progressLine (stage ws1 digits ws2 message : Str)
    (hstage : ']' ∉ stage) (hstageLine : ∀ c ∈ stage, isLineTerminator c = false)
    (hne : digits ≠ []) (hdigits : ∀ c ∈ digits, isDigit c = true)
    (hws1 : ∀ c ∈ ws1, isWhiteSpace c = true) (hws2 : ∀ c ∈ ws2, isWhiteSpace c = true)
    (hmessage : ∀ c rest, message = c :: rest → isWhiteSpace c = false)
    (hmessageLine : ∀ c ∈ message, isLineTerminator c = false) :
    progressEvent (progressLine stage ws1 digits ws2 message) =
        some (stage, toNumber (digitsValue digits), message) ∧
    (digitsValue digits < 2 ^ 53 →
      progressEvent (progressLine stage ws1 digits ws2 message) =
        some (stage, .fin (digitsValue digits), message)) := by
  cases digits with
  | nil => exact absurd rfl hne
  | cons d0 ds =>
    have hd0 : isDigit d0 = true := hdigits d0 (by simp)
    have hds : ∀ c ∈ ds, isDigit c = true := fun c hc => hdigits c (List.mem_cons_of_mem _ hc)
    have hm := progressMatch_progressLine stage ws1 d0 ds ws2 message hstage hstageLine hws1
      hd0 hds hws2 hmessage hmessageLine
    have hev : progressEvent (progressLine stage ws1 (d0 :: ds) ws2 message) =
        some (stage, toNumber (digitsValue (d0 :: ds)), message) := by
      rw [progressEvent, hm, Option.map_some', parseInt_digits d0 ds hd0 hds]
    refine ⟨hev, fun hv => ?_⟩
    rw [hev, toNumber_small _ hv]

/-- Witness of C6: `"[render] 100%: done"` yields stage `render`, progress 100, message
`done`. -/
theorem progressEvent_progressLine_witness :
    progressEvent "[render] 100%: done".toList =
      some ("render".toList, .fin 100, "done".toList) :=
  (progressEvent_progressLine "render".toList " ".toList "100".toList " ".toList
    "done".toList (by decide) (by decide) (by decide) (by decide) (by decide) (by decide)
    (by intro c rest e
        simp only [String.toList, List.cons.injEq] at e
        rw [← e.1]
        decide)
    (by decide)).2 (by decide)

/-- C7, as stated, fails: the expression is not anchored, so the line
`"INFO [fetch] 50%: working"`, which does not begin with `[`, yields an event. -/
theorem progress_match_not_anchored :
    ¬ ∀ (line stage : Str) (progress : JSNumber) (message : Str),
        progressEvent line = some (stage, progress, message) →
        line.head? = some '[' ∧ ']' ∉ stage ∧
        ∃ ws1 digits ws2, line = progressLine stage ws1 digits ws2 message ∧
          (∀ c ∈ ws1, isWhiteSpace c = true) ∧ digits ≠ [] ∧
          (∀ c ∈ digits, isDigit c = true) ∧ (∀ c ∈ ws2, isWhiteSpace c = true) := by
  intro h
  have h1 := h "INFO [fetch] 50%: working".toList "fetch".toList (.fin 50) "working".toList
    (by decide)
  exact absurd h1.1 (by decide)

/-- The stage of a match may hold `]`: the lazy group runs on to the first `]` after
which the rest of the expression matches. -/
theorem progressEvent_stage_with_bracket :
    progressEvent "[a] b] 5%: x".toList = some ("a] b".toList, .fin 5, "x".toList) := by
  decide

/-- C7, amended: whenever a line yields a progress event, the line holds, after some
text, `"["`, the stage (without line terminator), `"]"`, white space, one or more ASCII
digits whose Number is the progress, `"%:"`, white space and the message (without line
terminator), and what follows the message is empty or starts with a line terminator;
a line that yields no event leaves the task record and the notifications as they are. -/
theorem progressEvent_grammar (s : State) (line : Str) :
    match progressEvent line with
    | some (stage, progress, message) =>
      ∃ before ws1 digits ws2 rest,
        line = before ++ progressLine stage ws1 digits ws2 message ++ rest ∧
        (∀ c ∈ stage, isLineTerminator c = false) ∧
        (∀ c ∈ ws1, isWhiteSpace c = true) ∧
        digits ≠ [] ∧ (∀ c ∈ digits, isDigit c = true) ∧
        progress = toNumber (digitsValue digits) ∧
        (∀ c ∈ ws2, isWhiteSpace c = true) ∧
        (∀ c ∈ message, isLineTerminator c = false) ∧
        (∀ c more, rest = c :: more → isLineTerminator c = true)
    | none =>
      (processLine s line).task = s.task ∧ (processLine s line).emitted = s.emitted := by
  cases hev : progressEvent line with
  | none =>
    show (processLine s line).task = s.task ∧ (processLine s line).emitted = s.emitted
    unfold processLine
    rw [hev]
    split_ifs <;> exact ⟨rfl, rfl⟩
  | some ev =>
    obtain ⟨stage, progress, message⟩ := ev
    show ∃ before ws1 digits ws2 rest, _
    rw [progressEvent] at hev
    cases hm : progressMatch line with
    | none => rw [hm] at hev; simp at hev
    | some m =>
      rw [hm, Option.map_some', Option.some.injEq, Prod.mk.injEq, Prod.mk.injEq] at hev
      obtain ⟨hstage, hprogress, hmessage⟩ := hev
      rw [progressMatch] at hm
      cases hx : progressRe.exec line with
      | none => rw [hx] at hm; simp at hm
      | some caps =>
        obtain ⟨before, x, rest, hline, hhead⟩ := exec_some_inv _ _ _ hx
        obtain ⟨st, ws1, d0, ds, ws2, msg, hxeq, hcaps, hst, hws1, hd0, hds, hws2, hmsg,
          hrest⟩ := progressRe_head?_inv _ _ _ hhead
        rw [hx, hcaps] at hm
        simp only [Option.some.injEq] at hm
        subst hm
        simp only at hstage hprogress hmessage
        subst hstage hmessage
        refine ⟨before, ws1, d0 :: ds, ws2, rest, ?_,
          fun c hc => (isDot_eq_true c).1 (hst c hc), hws1, by simp, ?_, ?_, hws2,
          fun c hc => (isDot_eq_true c).1 (hmsg c hc), ?_⟩
        · rw [hline, hxeq]
          simp [progressLine]
        · intro c hc
          rcases List.mem_cons.1 hc with e | e
          · rw [e]; exact hd0
          · exact hds c e
        · rw [← hprogress, parseInt_digits d0 ds hd0 hds]
        · intro c more e
          have := hrest c more e
          simpa [isDot] using this

/-- Witness of C7: the line `"random log text"` yields no event and changes neither the
task record nor the notifications. -/
theorem progressEvent_grammar_witness :
    progressEvent "random log text".toList = none ∧
    (processLine (parseDeepWiki "socket".toList "temp/task.md".toList)
        "random log text".toList).task =
      (parseDeepWiki "socket".toList "temp/task.md".toList).task ∧
    (processLine (parseDeepWiki "socket".toList "temp/task.md".toList)
        "random log text".toList).emitted =
      (parseDeepWiki "socket".toList "temp/task.md".toList).emitted :=
  ⟨by decide,
    progressEvent_grammar (parseDeepWiki "socket".toList "temp/task.md".toList)
      "random log text".toList⟩

/-- C8, as stated, fails: with exit code 137 and nothing on stdout and stderr, the
error recorded on the task is the empty string, not the unknown-error text. -/
theorem nonzero_exit_empty_stderr_error :
    ¬ ∀ (socketId outputPath : Str) (events : List Event) (code : Option Int)
        (fs : FsOutcome),
        (∀ e ∈ events, e.isData = true) → code ≠ some 0 →
        (run (parseDeepWiki socketId outputPath) (events ++ [.close code fs])).task.status =
          .failed ∧
        (run (parseDeepWiki socketId outputPath) (events ++ [.close code fs])).task.error =
          .str (if stderrText events = [] then "未知错误".toList else stderrText events) ∧
        (run (parseDeepWiki socketId outputPath) (events ++ [.close code fs])).emitted.filter
            Emit.isTerminal =
          [.failed (if stderrText events = [] then "未知错误".toList
            else stderrText events)] := by
  intro h
  have h1 := h [] [] [] (some 137) (.size 0) (by decide) (by decide)
  exact absurd h1.2.1 (by decide)

/-- With stderr `"boom"` and exit code 1, the failed notification carries the text
after the words `"解析失败: "`. -/
theorem nonzero_exit_notification_text :
    (run (parseDeepWiki "socket".toList "temp/task.md".toList)
        [.stderrData (utf8Encode "boom".toList), .close (some 1) (.size 0)]).emitted =
      [.failed "解析失败: boom".toList] := by
  decide

/-- C8, amended: for every stdout and stderr output and every exit code other than 0,
when the process closes the status becomes failed; the failed notification carries
`"解析失败: "` followed by the accumulated stderr text when that text is non-empty and
by `"未知错误"` when it is empty; and when the stderr text is non-empty, the error
recorded on the task is that text verbatim. -/
theorem nonzero_exit_failed (socketId outputPath : Str) (events : List Event)
    (code : Option Int) (fs : FsOutcome)
    (hdata : ∀ e ∈ events, e.isData = true) (hcode : code ≠ some 0) :
    (run (parseDeepWiki socketId outputPath) (events ++ [.close code fs])).task.status =
      .failed ∧
    (run (parseDeepWiki socketId outputPath) (events ++ [.close code fs])).emitted =
      (run (parseDeepWiki socketId outputPath) events).emitted ++
        [.failed ("解析失败: ".toList ++
          (if stderrText events = [] then "未知错误".toList else stderrText events))] ∧
    (run (parseDeepWiki socketId outputPath) (events ++ [.close code fs])).emitted.filter
        Emit.isTerminal =
      [.failed ("解析失败: ".toList ++
        (if stderrText events = [] then "未知错误".toList else stderrText events))] ∧
    (stderrText events ≠ [] →
      (run (parseDeepWiki socketId outputPath) (events ++ [.close code fs])).task.error =
        .str (stderrText events)) := by
  have herr := run_errorOutput events (parseDeepWiki socketId outputPath) hdata
  have herr2 : (run (parseDeepWiki socketId outputPath) events).errorOutput =
      stderrText events := by
    rw [herr]; rfl
  have hterm : (run (parseDeepWiki socketId outputPath) events).emitted.filter
      Emit.isTerminal = [] := by
    rw [run_data_terminal events _ hdata]; rfl
  rw [run_append]
  generalize run (parseDeepWiki socketId outputPath) events = s at herr2 hterm
  have hrun : run s [.close code fs] = onClose s code fs := rfl
  rw [hrun]
  simp [onClose, hcode, herr2, List.filter_append, hterm, Emit.isTerminal]

/-- Witness of C8: exit code 137 after the stderr text `boom` gives status failed, the
notification `"解析失败: boom"` and the recorded error `boom`. -/
theorem nonzero_exit_failed_witness :
    (run (parseDeepWiki "socket".toList "temp/task.md".toList)
        ([.stdoutData (utf8Encode "x\n".toList), .stderrData (utf8Encode "boom".toList)] ++
          [.close (some 137) (.size 0)])).task.status = .failed ∧
    (run (parseDeepWiki "socket".toList "temp/task.md".toList)
        ([.stdoutData (utf8Encode "x\n".toList), .stderrData (utf8Encode "boom".toList)] ++
          [.close (some 137) (.size 0)])).emitted.filter Emit.isTerminal =
      [.failed "解析失败: boom".toList] ∧
    (run (parseDeepWiki "socket".toList "temp/task.md".toList)
        ([.stdoutData (utf8Encode "x\n".toList), .stderrData (utf8Encode "boom".toList)] ++
          [.close (some 137) (.size 0)])).task.error = .str "boom".toList :=
  ⟨(nonzero_exit_failed "socket".toList "temp/task.md".toList
      [.stdoutData (utf8Encode "x\n".toList), .stderrData (utf8Encode "boom".toList)] (some 137) (.size 0)
      (by decide) (by decide)).1,
    (nonzero_exit_failed "socket".toList "temp/task.md".toList
      [.stdoutData (utf8Encode "x\n".toList), .stderrData (utf8Encode "boom".toList)] (some 137) (.size 0)
      (by decide) (by decide)).2.2.1,
    (nonzero_exit_failed "socket".toList "temp/task.md".toList
      [.stdoutData (utf8Encode "x\n".toList), .stderrData (utf8Encode "boom".toList)] (some 137) (.size 0)
      (by decide) (by decide)).2.2.2 (by decide)⟩

/-- Exit code 137 with nothing on stdout and stderr: status failed, the notification
carries the unknown-error text, the error recorded on the task is the empty string. -/
theorem exit_137_empty_output :
    (run (parseDeepWiki "socket".toList "temp/task.md".toList)
        [.close (some 137) (.size 0)]).task.status = .failed ∧
    (run (parseDeepWiki "socket".toList "temp/task.md".toList)
        [.close (some 137) (.size 0)]).emitted = [.failed "解析失败: 未知错误".toList] ∧
    (run (parseDeepWiki "socket".toList "temp/task.md".toList)
        [.close (some 137) (.size 0)]).task.error = .str [] := by
  decide

end DeepWiki
